import Mathlib

/-!
A shallow embedding of libuci (pylover/uci): the element model, the
typecast helpers and the error-handling discipline come from the two
headers `src/uci.h` and `src/err.h`; the parser, serializer, journal and
lookup engines — whose C translation units are not part of the sources —
are modelled from the specification, as marked on each definition.
-/

namespace Uci

/-! ## Error codes (src/uci.h, anonymous enum) -/

def UCI_OK : Nat := 0
def UCI_ERR_MEM : Nat := 1
def UCI_ERR_INVAL : Nat := 2
def UCI_ERR_NOTFOUND : Nat := 3
def UCI_ERR_IO : Nat := 4
def UCI_ERR_PARSE : Nat := 5
def UCI_ERR_UNKNOWN : Nat := 6

/-! ## Element model (src/uci.h, `enum uci_type`, `struct uci_element`) -/

/-- Tag of a tree node, from `enum uci_type` in src/uci.h. -/
inductive UciType where
  | package
  | section
  | option
deriving DecidableEq, Repr

/-- Header shared by all tree nodes, from `struct uci_element` in src/uci.h:
a type tag and a name.  (The intrusive `struct uci_list` links are modelled
separately, as explicit successor/predecessor maps, for the traversal
claims.) -/
structure UciElement where
  etype : UciType
  ename : String
deriving DecidableEq, Repr

/-- Outcome of a debug-build element typecast, from `BUILD_CAST` in
src/uci.h (the `UCI_DEBUG_TYPECAST` variant): `reported` records whether
`uci_typecast_error` was invoked (a diagnostic printed to stderr), and
`result` is the value the cast returns.  The C function returns the
reinterpreted pointer unconditionally, after the optional diagnostic. -/
structure CastResult where
  reported : Bool
  result : UciElement
deriving DecidableEq, Repr

/-- Shared body of the three casts generated by the `BUILD_CAST` macro in
src/uci.h (debug build): compare the element's tag with the target tag,
report a typecast error on mismatch, and return the cast regardless. -/
def buildCast (target : UciType) (e : UciElement) : CastResult :=
  { reported := decide (e.etype ≠ target), result := e }

/-- Debug-build `uci_to_package` from src/uci.h (`BUILD_CAST(package)`). -/
def uci_to_package (e : UciElement) : CastResult := buildCast .package e

/-- Debug-build `uci_to_section` from src/uci.h (`BUILD_CAST(section)`). -/
def uci_to_section (e : UciElement) : CastResult := buildCast .section e

/-- Debug-build `uci_to_option` from src/uci.h (`BUILD_CAST(option)`). -/
def uci_to_option (e : UciElement) : CastResult := buildCast .option e

/-- Non-debug `uci_to_package`/`uci_to_section`/`uci_to_option` from
src/uci.h: a bare `container_of` pointer cast with no check at all. -/
def uci_cast_nodebug (e : UciElement) : UciElement := e

/-- Behaviour of a downcast as the specification words it: the downcast
"must fail with an explicit type-mismatch signal" when the tag does not
match, i.e. it yields no reinterpreted element on mismatch. -/
def castSpec (target : UciType) (e : UciElement) : Option UciElement :=
  if e.etype = target then some e else none

end Uci

namespace Uci

/-! ## Data model for packages (struct uci_package / uci_section / uci_option
in src/uci.h, with the list structure flattened to ordered Lean lists) -/

/-- Configuration option, from `struct uci_option` in src/uci.h: a name and
an opaque string value. -/
structure UOption where
  oname : String
  value : String
deriving DecidableEq, Repr

/-- Configuration section, from `struct uci_section` in src/uci.h: a
section-type string, a name (generated when anonymous), the anonymity
mark, and the ordered option list. -/
structure USection where
  stype : String
  sname : String
  anonymous : Bool
  options : List UOption
deriving DecidableEq, Repr

/-- Configuration package, from `struct uci_package` in src/uci.h: a name,
the ordered section list, and the `n_section` counter used to mint
anonymous-section identifiers. -/
structure UPackage where
  pname : String
  sections : List USection
  n_section : Nat
deriving DecidableEq, Repr

/-! ## Error-handling discipline (src/err.h) -/

/-- Context, from `struct uci_context` in src/uci.h: the root collection of
loaded packages (ordered), the recorded last error, and the parse
diagnostics left by a failed import. -/
structure ParseErr where
  line : Nat
  byte : Nat
  reason : String
deriving DecidableEq, Repr

structure UciCtx where
  root : List UPackage
  errCode : Nat
  pctx : Option ParseErr
deriving DecidableEq, Repr

/-! ## Anonymous-section identifiers

Modelled from the spec: the translation unit that mints anonymous-section
names is not among the sources (only the `n_section` counter field of
`struct uci_package` is); per §4.3 the engine "mints a unique anonymous
identifier scoped to the Package (monotonically increasing counter, never
reused even after the anonymous Section is later removed)".  The
identifier is rendered as `cfg` followed by the decimal counter value. -/

/-- Decimal digit list of a natural number, most significant first; the
first argument is recursion fuel (any amount larger than the number
suffices, since dividing by ten strictly decreases it). -/
def natCharsAux : Nat → Nat → List Char
  | 0, _ => []
  | fuel + 1, n =>
    if n < 10 then [Nat.digitChar n]
    else natCharsAux fuel (n / 10) ++ [Nat.digitChar (n % 10)]

/-- Decimal digit list of a natural number, most significant first. -/
def natChars (n : Nat) : List Char := natCharsAux (n + 1) n

/-- Numeric value of a digit character. -/
def digitVal (c : Char) : Nat := c.toNat - 48

/-- Numeric value of a digit string, used to invert `natChars`. -/
def charsVal (l : List Char) : Nat :=
  l.foldl (fun a c => 10 * a + digitVal c) 0

/-- Modelled from the spec: the generated identifier of the anonymous
section minted when the per-package counter stands at `k`. -/
def anonName (k : Nat) : String :=
  String.mk (['c', 'f', 'g'] ++ natChars k)

/-- Result of the body of a public operation, as seen by the
`UCI_HANDLE_ERR` wrapper in src/err.h: the body either runs to completion
(returning an `int` status) or throws via `UCI_THROW`, i.e. `longjmp`s to
the wrapper with a nonzero error value; either way it may have updated the
context it was handed. -/
inductive OpResult where
  | ret (ctx : UciCtx) (code : Nat)
  | thrown (ctx : UciCtx) (code : Nat)
deriving DecidableEq, Repr

/-- A public operation guarded by `UCI_HANDLE_ERR` from src/err.h: a null
context returns `UCI_ERR_INVAL` at once, before `setjmp` and before the
body runs; otherwise the body runs, and if it throws `e`, the wrapper
stores `e` in `ctx->errno` and returns `e`.  (A `longjmp` value is never
zero, so `thrown` carries a nonzero code.) -/
def runPublicOp (ctx : Option UciCtx) (body : UciCtx → OpResult) :
    Option UciCtx × Nat :=
  match ctx with
  | none => (none, UCI_ERR_INVAL)
  | some c =>
    match body c with
    | .ret c' v => (some c', v)
    | .thrown c' e => (some { c' with errCode := e }, e)

end Uci

namespace Uci

/-! ## Parser (Import)

Modelled from the spec: the parser translation unit is not among the
sources (src/uci.h only declares `uci_import` and
`struct uci_parse_context`).  Per §4.3/§6 the parser is a line-oriented
lexical scan: tokens are whitespace-separated, values may be single- or
double-quoted with the matching quote character escapable by a backslash,
full-line comments start with `#`, and the recognized statements are
`package <name>`, `config <type> [<name>]` and `option <name> <value>`,
with an option outside any section a Parse error. -/

/-- Line-internal whitespace. -/
def isWs (c : Char) : Bool := c = ' ' || c = '\t' || c = '\r'

/-- Mode of the line tokenizer: between tokens, inside a bare token,
inside a quoted token, or right after a backslash inside a quoted token.
Quoted modes remember the byte offset of the opening quote for the
diagnostic of an unterminated string. -/
inductive TMode where
  | out
  | bare (acc : List Char)
  | quoted (q : Char) (start : Nat) (acc : List Char)
  | esc (q : Char) (start : Nat) (acc : List Char)
deriving DecidableEq, Repr

/-- State of the line tokenizer: current mode, tokens emitted so far, and
the byte offset within the line. -/
structure TState where
  mode : TMode
  toks : List String
  pos : Nat
deriving DecidableEq, Repr

/-- One step of the line tokenizer. -/
def tokStep (s : TState) (c : Char) : TState :=
  let p := s.pos + 1
  match s.mode with
  | .out =>
    if isWs c then { s with pos := p }
    else if c = '\'' || c = '"' then { s with mode := .quoted c s.pos [], pos := p }
    else { s with mode := .bare [c], pos := p }
  | .bare acc =>
    if isWs c then { mode := .out, toks := s.toks ++ [String.mk acc], pos := p }
    else { s with mode := .bare (acc ++ [c]), pos := p }
  | .quoted q b acc =>
    if c = q then { mode := .out, toks := s.toks ++ [String.mk acc], pos := p }
    else if c = '\\' then { s with mode := .esc q b acc, pos := p }
    else { s with mode := .quoted q b (acc ++ [c]), pos := p }
  | .esc q b acc => { s with mode := .quoted q b (acc ++ [c]), pos := p }

/-- Finish a line: flush a pending bare token; a still-open quoted string
is an error reporting the byte offset of the opening quote. -/
def tokFinish (s : TState) : Except (String × Nat) (List String) :=
  match s.mode with
  | .out => .ok s.toks
  | .bare acc => .ok (s.toks ++ [String.mk acc])
  | .quoted _ b _ => .error ("unterminated quote", b)
  | .esc _ b _ => .error ("unterminated quote", b)

/-- Tokenize one line. -/
def tokenizeLine (cs : List Char) : Except (String × Nat) (List String) :=
  tokFinish (cs.foldl tokStep ⟨.out, [], 0⟩)

/-- Full-line comment: the first character after leading whitespace is
the comment marker. -/
def isComment (cs : List Char) : Bool :=
  match cs.dropWhile isWs with
  | [] => false
  | c :: _ => c = '#'

/-- Recognized statement forms, per §6 of the spec. -/
inductive Stmt where
  | pkg (name : String)
  | sec (stype : String) (name : Option String)
  | opt (name value : String)
deriving DecidableEq, Repr

/-- Turn one line's tokens into a statement; an empty line yields none. -/
def stmtOfToks (ts : List String) : Except String (Option Stmt) :=
  match ts with
  | [] => .ok none
  | kw :: args =>
    if kw = "package" then
      match args with
      | [n] => .ok (some (.pkg n))
      | _ => .error ("invalid package statement")
    else if kw = "config" then
      match args with
      | [t] => .ok (some (.sec t none))
      | [t, n] => .ok (some (.sec t (some n)))
      | _ => .error ("invalid config statement")
    else if kw = "option" then
      match args with
      | [n, v] => .ok (some (.opt n v))
      | _ => .error ("invalid option statement")
    else .error ("unexpected token")

/-- Package under construction, held outside the context's root collection
(the `package` field of `struct uci_parse_context`): the declared name, the
anonymous-identifier counter, and the sections built so far in reverse
order, each with its options in reverse order (the head section is the one
options attach to). -/
structure PBuild where
  bname : Option String
  count : Nat
  rsecs : List USection
deriving DecidableEq, Repr

/-- Apply one statement to the package under construction. -/
def applyStmt (b : PBuild) (st : Stmt) : Except String PBuild :=
  match st with
  | .pkg n => .ok { b with bname := some n }
  | .sec t name =>
    match name with
    | some n => .ok { b with rsecs := ⟨t, n, false, []⟩ :: b.rsecs }
    | none => .ok { bname := b.bname, count := b.count + 1,
                    rsecs := ⟨t, anonName b.count, true, []⟩ :: b.rsecs }
  | .opt n v =>
    match b.rsecs with
    | [] => .error ("option outside of a section")
    | s :: rest =>
      .ok { b with rsecs := { s with options := ⟨n, v⟩ :: s.options } :: rest }

/-- Run the parser over the lines of the stream, tracking the 1-based
line number for diagnostics. -/
def runLines (ls : List (List Char)) (ln : Nat) (b : PBuild) :
    Except ParseErr PBuild :=
  match ls with
  | [] => .ok b
  | l :: rest =>
    if isComment l then runLines rest (ln + 1) b
    else
      match tokenizeLine l with
      | .error (r, byte) => .error ⟨ln, byte, r⟩
      | .ok ts =>
        match stmtOfToks ts with
        | .error r => .error ⟨ln, 0, r⟩
        | .ok none => runLines rest (ln + 1) b
        | .ok (some st) =>
          match applyStmt b st with
          | .error r => .error ⟨ln, 0, r⟩
          | .ok bb => runLines rest (ln + 1) bb

/-- Restore the source order of a section's options. -/
def revSec (s : USection) : USection := { s with options := s.options.reverse }

/-- Finish a parse: settle the package name (the `package` statement wins,
else the caller-supplied fallback; names are single-line tokens, so a
fallback containing a newline is rejected) and restore source order. -/
def finalize (b : PBuild) (fallback : Option String) : Except ParseErr UPackage :=
  match b.bname.orElse (fun _ => fallback) with
  | none => .error ⟨0, 0, "missing package name"⟩
  | some n =>
    if '\n' ∈ n.data then .error ⟨0, 0, "invalid package name"⟩
    else .ok ⟨n, (b.rsecs.map revSec).reverse, b.count⟩

/-- Split a character stream into lines at newline characters. -/
def splitLines : List Char → List (List Char)
  | [] => [[]]
  | c :: rest =>
    if c = '\n' then [] :: splitLines rest
    else
      match splitLines rest with
      | [] => [[c]]
      | l :: ls => (c :: l) :: ls

/-- Parse a whole character stream into one package. -/
def parseText (input : String) (fallback : Option String) :
    Except ParseErr UPackage :=
  match runLines (splitLines input.data) 1 ⟨none, 0, []⟩ with
  | .error e => .error e
  | .ok b => finalize b fallback

/-- Insert a freshly parsed package into the root collection, replacing a
resident package of the same name (spec §4.2/§4.3). -/
def insertPackage (root : List UPackage) (p : UPackage) : List UPackage :=
  if root.any (fun q => q.pname = p.pname) then
    root.map (fun q => if q.pname = p.pname then p else q)
  else root ++ [p]

/-- Modelled from the spec: `uci_import` (declared in src/uci.h, body not
among the sources).  The package under construction lives outside the
root collection; on a parse failure the context keeps its resident
packages untouched and only records the error code and the diagnostics,
while on success the finished package replaces any resident package of
the same name. -/
def uci_import (ctx : UciCtx) (input : String) (fallback : Option String) :
    UciCtx × Except ParseErr UPackage :=
  match parseText input fallback with
  | .error e => ({ ctx with errCode := UCI_ERR_PARSE, pctx := some e }, .error e)
  | .ok p => ({ ctx with root := insertPackage ctx.root p, pctx := none }, .ok p)

/-! ## Serializer (Export)

Modelled from the spec: the serializer translation unit is not among the
sources (src/uci.h only declares `uci_export`).  Per §4.4 every emitted
value is single-quoted with the quote character (and the escape character)
escaped, sections appear in insertion order with anonymous sections
omitting the name token, and options follow their section. -/

/-- Escape a string for inclusion in single quotes. -/
def escapeQ : List Char → List Char
  | [] => []
  | c :: rest => (if c = '\'' || c = '\\' then ['\\', c] else [c]) ++ escapeQ rest

/-- Render a token in its always-quoted output form. -/
def quoteTok (s : String) : List Char := '\'' :: (escapeQ s.data ++ ['\''])

/-- Render one statement as an output line (options are indented). -/
def stmtChars : Stmt → List Char
  | .pkg n => "package ".data ++ quoteTok n
  | .sec t none => "config ".data ++ quoteTok t
  | .sec t (some n) => "config ".data ++ quoteTok t ++ (' ' :: quoteTok n)
  | .opt n v => '\t' :: ("option ".data ++ quoteTok n ++ (' ' :: quoteTok v))

/-- Statements serializing one section. -/
def secStmts (s : USection) : List Stmt :=
  .sec s.stype (if s.anonymous then none else some s.sname) ::
    s.options.map (fun o => .opt o.oname o.value)

/-- Statements serializing one package. -/
def stmtsOf (p : UPackage) : List Stmt :=
  .pkg p.pname :: (p.sections.map secStmts).flatten

/-- Characters of the canonical export of one package. -/
def exportChars (p : UPackage) : List Char :=
  ((stmtsOf p).map (fun st => stmtChars st ++ ['\n'])).flatten

/-- Canonical export of one package. -/
def uci_export_pkg (p : UPackage) : String := String.mk (exportChars p)

/-- Modelled from the spec: `uci_export` (declared in src/uci.h, body not
among the sources) writes one package, or all resident packages in
context order when none is singled out. -/
def uci_export (ctx : UciCtx) (p : Option UPackage) : String :=
  match p with
  | some p => uci_export_pkg p
  | none => String.mk ((ctx.root.map exportChars).flatten)

/-- Option-list equality, the structural-equality core. -/
def secEq (a b : USection) : Bool :=
  a.stype == b.stype && a.anonymous == b.anonymous &&
    (a.anonymous || a.sname == b.sname) && a.options == b.options

/-- Structural equality of packages up to regenerated anonymous-section
identifiers: same name, same sections in the same order, each with the
same type, the same anonymity, the same options in the same order with
the same values, and the same name when not anonymous. -/
def pkgEq (a b : UPackage) : Bool :=
  a.pname == b.pname && a.sections.length == b.sections.length &&
    (List.zip a.sections b.sections).all (fun x => secEq x.1 x.2)

/-- Generated identifiers of the anonymous sections, in order. -/
def anonNamesOf (ss : List USection) : List String :=
  (ss.filter (·.anonymous)).map (·.sname)

end Uci

namespace Uci

/-! ## History / Journal

Modelled from the spec: the journal translation unit is not among the
sources (src/uci.h only declares `enum uci_command` and
`struct uci_history`).  Per §4.5 every mutating operation appends an
entry capturing enough state to invert it before applying the mutation:
a CHANGE snapshots the prior option value, an ADD records a reference to
the new element, a REMOVE deep-snapshots the removed subtree together
with its original position; reverting pops the tail entry and applies the
inverse, reinserting a snapshot at its original position (appending at
the end if that position is gone), and committing discards the journal. -/

/-- Insert at a position, appending at the end when the position is gone
(the spec's explicit best-effort reinsertion policy). -/
def insertAt {α : Type} (n : Nat) (a : α) : List α → List α :=
  fun l =>
    match n, l with
    | 0, l => a :: l
    | _ + 1, [] => [a]
    | n + 1, x :: xs => x :: insertAt n a xs

/-- Journal entry, from `enum uci_command` and `struct uci_history` in
src/uci.h with the union payload made a tagged variant: the command plus
the snapshot/reference it needs, with elements referenced by their
position in the owning package. -/
inductive JEntry where
  | change (si oi : Nat) (prior : String)
  | addSec (si : Nat)
  | addOpt (si oi : Nat)
  | removeSec (si : Nat) (snap : USection)
  | removeOpt (si oi : Nat) (snap : UOption)
deriving DecidableEq, Repr

/-- Mutating operations on a package's tree, per §4.5 of the spec: set an
option's value, add a section (anonymous when no name is supplied), add
an option, remove a section, remove an option. -/
inductive MOp where
  | setValue (si oi : Nat) (v : String)
  | addSection (stype : String) (name : Option String)
  | addOption (si : Nat) (name value : String)
  | removeSection (si : Nat)
  | removeOption (si oi : Nat)
deriving DecidableEq, Repr

/-- A package together with its journal. -/
structure PState where
  pkg : UPackage
  journal : List JEntry
deriving DecidableEq, Repr

/-- Apply one mutating operation: the journal entry and the mutation
succeed together or neither is observable (`none`). -/
def applyOp (s : PState) (m : MOp) : Option PState :=
  match m with
  | .setValue si oi v =>
    match s.pkg.sections[si]? with
    | none => none
    | some sec =>
      match sec.options[oi]? with
      | none => none
      | some o =>
        let sec2 := { sec with options := sec.options.set oi ({ o with value := v }) }
        some ⟨{ s.pkg with sections := s.pkg.sections.set si sec2 },
              s.journal ++ [.change si oi o.value]⟩
  | .addSection t name =>
    match name with
    | some n =>
      some ⟨⟨s.pkg.pname, s.pkg.sections ++ [⟨t, n, false, []⟩], s.pkg.n_section⟩,
            s.journal ++ [.addSec s.pkg.sections.length]⟩
    | none =>
      some ⟨⟨s.pkg.pname,
             s.pkg.sections ++ [⟨t, anonName s.pkg.n_section, true, []⟩],
             s.pkg.n_section + 1⟩,
            s.journal ++ [.addSec s.pkg.sections.length]⟩
  | .addOption si n v =>
    match s.pkg.sections[si]? with
    | none => none
    | some sec =>
      let sec2 := { sec with options := sec.options ++ [⟨n, v⟩] }
      some ⟨{ s.pkg with sections := s.pkg.sections.set si sec2 },
            s.journal ++ [.addOpt si sec.options.length]⟩
  | .removeSection si =>
    match s.pkg.sections[si]? with
    | none => none
    | some sec =>
      some ⟨{ s.pkg with sections := s.pkg.sections.eraseIdx si },
            s.journal ++ [.removeSec si sec]⟩
  | .removeOption si oi =>
    match s.pkg.sections[si]? with
    | none => none
    | some sec =>
      match sec.options[oi]? with
      | none => none
      | some o =>
        let sec2 := { sec with options := sec.options.eraseIdx oi }
        some ⟨{ s.pkg with sections := s.pkg.sections.set si sec2 },
              s.journal ++ [.removeOpt si oi o]⟩

/-- Inverse of a recorded command, applied to the section list: CHANGE
restores the snapshotted prior value, ADD removes the referenced element,
REMOVE reinserts the snapshot at its original position. -/
def undoEntry (secs : List USection) (e : JEntry) : List USection :=
  match e with
  | .change si oi prior =>
    match secs[si]? with
    | none => secs
    | some sec =>
      match sec.options[oi]? with
      | none => secs
      | some o =>
                let sec2 := { sec with options := sec.options.set oi ({ o with value := prior }) }
        secs.set si sec2
  | .addSec si => secs.eraseIdx si
  | .addOpt si oi =>
    match secs[si]? with
    | none => secs
    | some sec =>
      let sec2 := { sec with options := sec.options.eraseIdx oi }
      secs.set si sec2
  | .removeSec si snap => insertAt si snap secs
  | .removeOpt si oi snap =>
    match secs[si]? with
    | none => secs
    | some sec =>
      let sec2 := { sec with options := insertAt oi snap sec.options }
      secs.set si sec2

/-- Modelled from the spec: one revert pops the most recently appended
journal entry (LIFO) and applies the inverse of its recorded command; on
an empty journal it is a no-op, not an error.  The anonymous-identifier
counter is deliberately not rolled back (identifiers are never reused). -/
def uci_revert (s : PState) : PState :=
  match s.journal.getLast? with
  | none => s
  | some e =>
    ⟨⟨s.pkg.pname, undoEntry s.pkg.sections e, s.pkg.n_section⟩, s.journal.dropLast⟩

/-- Iterated revert. -/
def revertN (n : Nat) (s : PState) : PState :=
  match n with
  | 0 => s
  | n + 1 => uci_revert (revertN n s)

/-- Modelled from the spec: commit discards the entire journal without
altering the live tree. -/
def uci_commit (s : PState) : PState := ⟨s.pkg, []⟩

/-- Apply a sequence of mutating operations, failing as soon as one
fails. -/
def applyOps (s : PState) : List MOp → Option PState
  | [] => some s
  | m :: ms =>
    match applyOp s m with
    | none => none
    | some t => applyOps t ms

/-- Package-lifetime actions: mutating operations, reverts and commits. -/
inductive Act where
  | op (m : MOp)
  | revert
  | commit
deriving DecidableEq, Repr

/-- Apply one lifetime action. -/
def applyAct (s : PState) (a : Act) : Option PState :=
  match a with
  | .op m => applyOp s m
  | .revert => some (uci_revert s)
  | .commit => some (uci_commit s)

/-- Identifier minted by one action, if any: only adding a section with
the name omitted mints an anonymous identifier, from the current counter. -/
def mintHead (s : PState) : Act → List String
  | .op (.addSection _ none) => [anonName s.pkg.n_section]
  | _ => []

/-- Identifiers minted for anonymous sections along a run of lifetime
actions (the run stops at the first failing action). -/
def mintedIds (s : PState) : List Act → List String
  | [] => []
  | a :: rest =>
    match applyAct s a with
    | none => []
    | some t => mintHead s a ++ mintedIds t rest

end Uci

namespace Uci

/-! ## Intrusive sibling lists and the deletion-safe traversal
(src/uci.h, `struct uci_list`, `uci_foreach_element_safe`) -/

/-- Heap of intrusive `struct uci_list` nodes: nodes are identified by
addresses (naturals) and carry the two link fields `next` and `prev`. -/
structure LState where
  nxt : Nat → Nat
  prv : Nat → Nat

/-- Modelled from the spec: detaching an element from its sibling list in
O(1) (the translation unit with the unlink helper is not among the
sources).  The standard doubly-linked unlink: the element's neighbours
are joined around it. -/
def listDel (s : LState) (e : Nat) : LState :=
  { nxt := fun x => if x = s.prv e then s.nxt e else s.nxt x,
    prv := fun x => if x = s.nxt e then s.prv e else s.prv x }

/-- Body of the `uci_foreach_element_safe` loop from src/uci.h: `_tmp` is
read from the current element before the body runs, the body may detach
the current element (here: when `del` says so), and the loop then resumes
at `_tmp`; it stops when the cursor reaches the list head.  `fuel` bounds
the number of iterations (the C loop's termination is the ring shape,
which the theorems assume via `isRing`). -/
def safeForeach (fuel : Nat) (s : LState) (head ptr : Nat) (del : Nat → Bool) :
    List Nat × LState :=
  match fuel with
  | 0 => ([], s)
  | fuel + 1 =>
    if ptr = head then ([], s)
    else
      let tmp := s.nxt ptr
      let s1 := if del ptr then listDel s ptr else s
      let r := safeForeach fuel s1 head tmp del
      (ptr :: r.1, r.2)

/-- Entry point of `uci_foreach_element_safe` from src/uci.h: the cursor
starts at `(_list)->next`. -/
def uci_foreach_element_safe (fuel : Nat) (s : LState) (head : Nat)
    (del : Nat → Bool) : List Nat × LState :=
  safeForeach fuel s head (s.nxt head) del

/-- Forward links along a node sequence: each node's `next` is its
successor. -/
def chainNext (f : Nat → Nat) : List Nat → Prop
  | [] => True
  | [_] => True
  | a :: b :: l => f a = b ∧ chainNext f (b :: l)

/-- Backward links along a node sequence: each node's `prev` is its
predecessor. -/
def chainBack (f : Nat → Nat) : List Nat → Prop
  | [] => True
  | [_] => True
  | a :: b :: l => f b = a ∧ chainBack f (b :: l)

/-- A well-formed circular sibling list with sentinel `head` and elements
`xs` in order: the forward and backward links trace
`head, xs…, head`, and all nodes are distinct. -/
def isRing (s : LState) (head : Nat) (xs : List Nat) : Prop :=
  chainNext s.nxt (head :: xs ++ [head]) ∧
    chainBack s.prv (head :: xs ++ [head]) ∧ xs.Nodup ∧ head ∉ xs

end Uci

namespace Uci

/-! ## Lookup

Modelled from the spec: the lookup translation unit is not among the
sources (src/uci.h only declares `uci_lookup`).  Per §4.6 each level is a
linear name scan, each level that is present but unresolved yields
NotFound, omitting the section component yields the package element,
omitting the option component yields the section element, and anonymous
sections are not addressable by name. -/

/-- Element reference returned by a lookup. -/
inductive LookupRes where
  | pkgElem (p : UPackage)
  | secElem (s : USection)
  | optElem (o : UOption)
deriving DecidableEq, Repr

/-- Linear scan of the root collection by package name. -/
def findPkg (root : List UPackage) (n : String) : Option UPackage :=
  root.find? (fun p => p.pname == n)

/-- Linear scan of a package's sections by name; anonymous sections are
not addressable by name. -/
def findSec (p : UPackage) (n : String) : Option USection :=
  p.sections.find? (fun s => !s.anonymous && s.sname == n)

/-- Linear scan of a section's options by name. -/
def findOpt (s : USection) (n : String) : Option UOption :=
  s.options.find? (fun o => o.oname == n)

/-- Modelled from the spec: `uci_lookup` (declared in src/uci.h, body not
among the sources) resolves a dotted path level by level. -/
def uci_lookup (ctx : UciCtx) (pkg : String) (sec opt : Option String) :
    Except Nat LookupRes :=
  match findPkg ctx.root pkg with
  | none => .error UCI_ERR_NOTFOUND
  | some p =>
    match sec with
    | none => .ok (.pkgElem p)
    | some sn =>
      match findSec p sn with
      | none => .error UCI_ERR_NOTFOUND
      | some s =>
        match opt with
        | none => .ok (.secElem s)
        | some onm =>
          match findOpt s onm with
          | none => .error UCI_ERR_NOTFOUND
          | some o => .ok (.optElem o)

end Uci


namespace Uci

/-! ## Auxiliary definitions for the round-trip development -/

/-- Apply a list of statements to the package under construction. -/
def applyStmts (b : PBuild) : List Stmt → Except String PBuild
  | [] => .ok b
  | st :: rest =>
    match applyStmt b st with
    | .error r => .error r
    | .ok bb => applyStmts bb rest

/-- Newline-free string: the property every string read from a
line-oriented stream has. -/
def nlFreeStr (s : String) : Prop := '\n' ∉ s.data

/-- Newline-freeness of a section's strings. -/
def nlFreeSec (s : USection) : Prop :=
  nlFreeStr s.stype ∧ nlFreeStr s.sname ∧
    ∀ o ∈ s.options, nlFreeStr o.oname ∧ nlFreeStr o.value

/-- Newline-freeness of a package's strings. -/
def nlFreePkg (p : UPackage) : Prop :=
  nlFreeStr p.pname ∧ ∀ s ∈ p.sections, nlFreeSec s

/-- Newline-freeness of a statement's strings. -/
def nlFreeStmt : Stmt → Prop
  | .pkg n => nlFreeStr n
  | .sec t name => nlFreeStr t ∧ ∀ n, name = some n → nlFreeStr n
  | .opt n v => nlFreeStr n ∧ nlFreeStr v

/-- Newline-freeness of the tokenizer mode's accumulator. -/
def nlFreeMode : TMode → Prop
  | .out => True
  | .bare acc => '\n' ∉ acc
  | .quoted _ _ acc => '\n' ∉ acc
  | .esc _ _ acc => '\n' ∉ acc

/-- Newline-freeness of a tokenizer state. -/
def nlFreeState (s : TState) : Prop :=
  (∀ t ∈ s.toks, '\n' ∉ t.data) ∧ nlFreeMode s.mode

/-- Newline-freeness of the package under construction. -/
def nlFreeBuild (b : PBuild) : Prop :=
  (∀ n, b.bname = some n → nlFreeStr n) ∧ ∀ s ∈ b.rsecs, nlFreeSec s

/-- Number of anonymous sections in a list. -/
def anonCount : List USection → Nat
  | [] => 0
  | s :: rest => (if s.anonymous then 1 else 0) + anonCount rest

/-- A section as rebuilt by reimporting its export when the
anonymous-identifier counter stands at `c`: identical except that an
anonymous section's identifier is regenerated. -/
def regenSec (c : Nat) (s : USection) : USection :=
  ⟨s.stype, if s.anonymous then anonName c else s.sname, s.anonymous, s.options⟩

/-- Sections as rebuilt by reimporting their export, threading the
counter. -/
def regenSecs (c : Nat) : List USection → List USection
  | [] => []
  | s :: rest => regenSec c s :: regenSecs (c + if s.anonymous then 1 else 0) rest

/-- The package produced by importing the export of `p`. -/
def regenPkg (p : UPackage) : UPackage :=
  ⟨p.pname, regenSecs 0 p.sections, anonCount p.sections⟩

end Uci

namespace Uci

/-! ## Helper lemmas on lists -/

theorem setGetSelf {α : Type} : ∀ (l : List α) (i : Nat) (a : α),
    l[i]? = some a → l.set i a = l := by
  intro l
  induction l with
  | nil => intro i a h; simp at h
  | cons x xs ih =>
    intro i a h
    match i with
    | 0 => simp at h; simp [List.set, h]
    | j + 1 => simp at h; simp [List.set, ih j a h]

theorem getSetSelf {α : Type} : ∀ (l : List α) (i : Nat) (a b : α),
    l[i]? = some a → (l.set i b)[i]? = some b := by
  intro l
  induction l with
  | nil => intro i a b h; simp at h
  | cons x xs ih =>
    intro i a b h
    match i with
    | 0 => simp [List.set]
    | j + 1 => simp at h ⊢; exact ih j a b h

theorem eraseConcat {α : Type} : ∀ (l : List α) (a : α),
    (l ++ [a]).eraseIdx l.length = l := by
  intro l a
  induction l with
  | nil => rfl
  | cons x xs ih => simpa [List.eraseIdx] using ih

theorem insertAtErase {α : Type} : ∀ (l : List α) (i : Nat) (a : α),
    l[i]? = some a → insertAt i a (l.eraseIdx i) = l := by
  intro l
  induction l with
  | nil => intro i a h; simp at h
  | cons x xs ih =>
    intro i a h
    match i with
    | 0 => simp at h; simp [List.eraseIdx, insertAt, h]
    | j + 1 => simp at h; simp [List.eraseIdx, insertAt, ih j a h]

/-! ## Claim C3: element downcasts -/

/-- Claim C3 counterexample: at the concrete element `⟨.section, "s"⟩`
the tag does not match the `package` target, yet the debug-build downcast
only emits a diagnostic and still returns the reinterpreted element (and
the default build performs the cast with no check at all), contradicting
the claim that the downcast fails rather than proceeding; `castSpec`
records the behaviour the claim describes. -/
theorem claim_C3_counterexample :
    (⟨.section, "s"⟩ : UciElement).etype ≠ .package ∧
      uci_to_package ⟨.section, "s"⟩ = ⟨true, ⟨.section, "s"⟩⟩ ∧
      uci_cast_nodebug ⟨.section, "s"⟩ = ⟨.section, "s"⟩ ∧
      castSpec .package ⟨.section, "s"⟩ = none := by
  refine ⟨by decide, rfl, rfl, rfl⟩

/-- Claim C3 (amended): for every element and target variant, when the
type tag does not match the target, the `UCI_DEBUG_TYPECAST` build of the
downcast emits an explicit type-mismatch diagnostic but still proceeds,
returning the reinterpreted element; the default build performs the cast
entirely unchecked. -/
theorem claim_C3 (e : UciElement) (t : UciType) (h : e.etype ≠ t) :
    (buildCast t e).reported = true ∧ (buildCast t e).result = e ∧
      uci_cast_nodebug e = e :=
  ⟨by simp [buildCast, h], rfl, rfl⟩

/-- Claim C3 witness: the amended statement at the concrete element
`⟨.option, "o"⟩` cast to `package`. -/
theorem claim_C3_witness :
    (⟨.option, "o"⟩ : UciElement).etype ≠ .package ∧
      ((buildCast .package ⟨.option, "o"⟩).reported = true ∧
        (buildCast .package ⟨.option, "o"⟩).result = ⟨.option, "o"⟩ ∧
        uci_cast_nodebug ⟨.option, "o"⟩ = ⟨.option, "o"⟩) :=
  ⟨by decide, claim_C3 ⟨.option, "o"⟩ .package (by decide)⟩

/-! ## Claims C9 and C10: the UCI_HANDLE_ERR discipline -/

/-- Claim C9: every public operation invoked with a null context returns
`UCI_ERR_INVAL` immediately — for every body, so the body is never run
and no state is touched or dereferenced. -/
theorem claim_C9 (body : UciCtx → OpResult) :
    runPublicOp none body = (none, UCI_ERR_INVAL) := rfl

/-- Claim C10: whenever the body of a public operation fails through the
error-propagation mechanism (throws a nonzero code), the wrapper both
returns that code and stores it as the context's last error, so the two
agree after the call. -/
theorem claim_C10 (c c2 : UciCtx) (body : UciCtx → OpResult) (e : Nat)
    (hthrow : body c = .thrown c2 e) (_hnz : e ≠ 0) :
    (runPublicOp (some c) body).2 = e ∧
      ∃ cOut, (runPublicOp (some c) body).1 = some cOut ∧ cOut.errCode = e := by
  refine ⟨by simp [runPublicOp, hthrow], { c2 with errCode := e }, ?_, rfl⟩
  simp [runPublicOp, hthrow]

/-- Claim C10 witness: a concrete body throwing `UCI_ERR_IO` from the
empty context. -/
theorem claim_C10_witness :
    (runPublicOp (some ⟨[], 0, none⟩) (fun c => .thrown c 4)).2 = 4 ∧
      ∃ cOut, (runPublicOp (some ⟨[], 0, none⟩) (fun c => .thrown c 4)).1 =
          some cOut ∧ cOut.errCode = 4 :=
  claim_C10 ⟨[], 0, none⟩ ⟨[], 0, none⟩ (fun c => .thrown c 4) 4 rfl (by decide)

/-! ## Claim C6: commit discards the journal and nothing else -/

theorem revert_nil_journal (p : UPackage) : uci_revert ⟨p, []⟩ = ⟨p, []⟩ := rfl

/-- Claim C6: commit discards the package's entire journal while leaving
the live tree unchanged; after a commit any number of reverts is a no-op,
and in particular a single revert on the resulting empty journal is a
no-op rather than an error. -/
theorem claim_C6 (s : PState) (n : Nat) :
    (uci_commit s).pkg = s.pkg ∧ (uci_commit s).journal = [] ∧
      revertN n (uci_commit s) = uci_commit s ∧
      uci_revert (uci_commit s) = uci_commit s := by
  refine ⟨rfl, rfl, ?_, rfl⟩
  induction n with
  | zero => rfl
  | succ n ih => simp [revertN, ih]; rfl

/-! ## Claim C1: import atomicity -/

/-- Claim C1: when an import fails with a parse error, the context's root
collection of resident packages is left exactly as it was — the package
under construction never reaches the root collection. -/
theorem claim_C1 (ctx : UciCtx) (input : String) (fb : Option String)
    (e : ParseErr) (h : (uci_import ctx input fb).2 = .error e) :
    (uci_import ctx input fb).1.root = ctx.root := by
  unfold uci_import at h ⊢
  cases hp : parseText input fb with
  | error pe => simp [hp]
  | ok p => simp [hp] at h

/-- Claim C1 witness: the spec's malformed example (an option statement
missing its value) fails with a Parse diagnostic on line 2 and leaves the
empty root collection empty. -/
theorem claim_C1_witness :
    ((uci_import ⟨[], 0, none⟩ "config 'x'\noption 'y'" (some ("net"))).2 =
        .error ⟨2, 0, "invalid option statement"⟩) ∧
      (uci_import ⟨[], 0, none⟩ "config 'x'\noption 'y'" (some ("net"))).1.root = [] :=
  ⟨rfl, claim_C1 ⟨[], 0, none⟩ "config 'x'\noption 'y'" (some ("net"))
      ⟨2, 0, "invalid option statement"⟩ rfl⟩

/-! ## Claim C8: dotted-path lookup -/

/-- Claim C8: lookup resolves level by level by linear name scan —
omitting the section component yields the package element, omitting the
option component yields the section element, every present level that
fails its scan yields NotFound, and a section element found by name is
never anonymous. -/
theorem claim_C8 (ctx : UciCtx) (pn : String) :
    (∀ p, findPkg ctx.root pn = some p →
        uci_lookup ctx pn none none = .ok (.pkgElem p)) ∧
    (findPkg ctx.root pn = none →
        ∀ sec opt, uci_lookup ctx pn sec opt = .error UCI_ERR_NOTFOUND) ∧
    (∀ p sn s, findPkg ctx.root pn = some p → findSec p sn = some s →
        uci_lookup ctx pn (some sn) none = .ok (.secElem s)) ∧
    (∀ p sn, findPkg ctx.root pn = some p → findSec p sn = none →
        ∀ opt, uci_lookup ctx pn (some sn) opt = .error UCI_ERR_NOTFOUND) ∧
    (∀ p sn s onm o, findPkg ctx.root pn = some p → findSec p sn = some s →
        findOpt s onm = some o →
        uci_lookup ctx pn (some sn) (some onm) = .ok (.optElem o)) ∧
    (∀ p sn s onm, findPkg ctx.root pn = some p → findSec p sn = some s →
        findOpt s onm = none →
        uci_lookup ctx pn (some sn) (some onm) = .error UCI_ERR_NOTFOUND) ∧
    (∀ sn s opt, uci_lookup ctx pn (some sn) opt = .ok (.secElem s) →
        s.anonymous = false) := by
  refine ⟨?_, ?_, ?_, ?_, ?_, ?_, ?_⟩
  · intro p hp; simp [uci_lookup, hp]
  · intro hp sec opt; simp [uci_lookup, hp]
  · intro p sn s hp hs; simp [uci_lookup, hp, hs]
  · intro p sn hp hs opt; simp [uci_lookup, hp, hs]
  · intro p sn s onm o hp hs ho; simp [uci_lookup, hp, hs, ho]
  · intro p sn s onm hp hs ho; simp [uci_lookup, hp, hs, ho]
  · intro sn s opt h
    unfold uci_lookup at h
    cases hp : findPkg ctx.root pn with
    | none => simp [hp] at h
    | some p =>
      simp [hp] at h
      cases hs : findSec p sn with
      | none => simp [hs] at h
      | some s2 =>
        simp [hs] at h
        have hpred := List.find?_some hs
        cases opt with
        | none =>
          simp at h
          have hpred2 : s2.anonymous = false ∧ s2.sname = sn := by simpa using hpred
          cases h
          exact hpred2.1
        | some onm =>
          cases hq : findOpt s2 onm with
          | none => simp [hq] at h
          | some o => simp [hq] at h

/-- Claim C8 witness: concrete lookups against a context holding one
package `net` with a named section `lan` holding option `ifname`. -/
theorem claim_C8_witness :
    (uci_lookup ⟨[⟨"net", [⟨"interface", "lan", false, [⟨"ifname", "eth0"⟩]⟩], 0⟩],
        0, none⟩ "net" none none =
      .ok (.pkgElem ⟨"net", [⟨"interface", "lan", false, [⟨"ifname", "eth0"⟩]⟩], 0⟩)) ∧
    (uci_lookup ⟨[⟨"net", [⟨"interface", "lan", false, [⟨"ifname", "eth0"⟩]⟩], 0⟩],
        0, none⟩ "net" (some ("lan")) (some ("ifname")) =
      .ok (.optElem ⟨"ifname", "eth0"⟩)) ∧
    (uci_lookup ⟨[⟨"net", [⟨"interface", "lan", false, [⟨"ifname", "eth0"⟩]⟩], 0⟩],
        0, none⟩ "net" (some ("wan")) none = .error UCI_ERR_NOTFOUND) := by
  obtain ⟨h1, h2, h3, h4, h5, h6, h7⟩ :=
    claim_C8 ⟨[⟨"net", [⟨"interface", "lan", false, [⟨"ifname", "eth0"⟩]⟩], 0⟩],
      0, none⟩ "net"
  exact ⟨h1 ⟨"net", [⟨"interface", "lan", false, [⟨"ifname", "eth0"⟩]⟩], 0⟩ (by decide),
    h5 ⟨"net", [⟨"interface", "lan", false, [⟨"ifname", "eth0"⟩]⟩], 0⟩ "lan"
      ⟨"interface", "lan", false, [⟨"ifname", "eth0"⟩]⟩ "ifname" ⟨"ifname", "eth0"⟩
      (by decide) (by decide) (by decide),
    h4 ⟨"net", [⟨"interface", "lan", false, [⟨"ifname", "eth0"⟩]⟩], 0⟩ "wan"
      (by decide) (by decide) none⟩

end Uci

namespace Uci

/-! ## Claim C4: the journal inverse law -/

theorem applyOp_invert (s : PState) (m : MOp) (t : PState)
    (h : applyOp s m = some t) :
    t.pkg.pname = s.pkg.pname ∧ s.pkg.n_section ≤ t.pkg.n_section ∧
      ∃ e, t.journal = s.journal ++ [e] ∧
        undoEntry t.pkg.sections e = s.pkg.sections := by
  cases m with
  | setValue si oi v =>
    dsimp [applyOp] at h
    cases hsec : s.pkg.sections[si]? with
    | none => rw [hsec] at h; simp at h
    | some sec =>
      rw [hsec] at h
      obtain ⟨st0, sn0, sa0, so0⟩ := sec
      dsimp at h
      cases hopt : so0[oi]? with
      | none => rw [hopt] at h; simp at h
      | some o =>
        rw [hopt] at h
        obtain ⟨on0, ov0⟩ := o
        dsimp at h
        cases h
        refine ⟨rfl, Nat.le_refl _, .change si oi ov0, rfl, ?_⟩
        dsimp [undoEntry]
        rw [getSetSelf _ _ _ _ hsec]
        dsimp
        rw [getSetSelf _ _ _ _ hopt]
        dsimp
        rw [List.set_set, List.set_set, setGetSelf _ _ _ hopt, setGetSelf _ _ _ hsec]
  | addSection ty name =>
    cases name with
    | some n =>
      dsimp [applyOp] at h
      cases h
      refine ⟨rfl, Nat.le_refl _, .addSec s.pkg.sections.length, rfl, ?_⟩
      dsimp [undoEntry]
      exact eraseConcat _ _
    | none =>
      dsimp [applyOp] at h
      cases h
      refine ⟨rfl, Nat.le_succ _, .addSec s.pkg.sections.length, rfl, ?_⟩
      dsimp [undoEntry]
      exact eraseConcat _ _
  | addOption si n v =>
    dsimp [applyOp] at h
    cases hsec : s.pkg.sections[si]? with
    | none => rw [hsec] at h; simp at h
    | some sec =>
      rw [hsec] at h
      obtain ⟨st0, sn0, sa0, so0⟩ := sec
      dsimp at h
      cases h
      refine ⟨rfl, Nat.le_refl _, .addOpt si so0.length, rfl, ?_⟩
      dsimp [undoEntry]
      rw [getSetSelf _ _ _ _ hsec]
      dsimp
      rw [eraseConcat, List.set_set, setGetSelf _ _ _ hsec]
  | removeSection si =>
    dsimp [applyOp] at h
    cases hsec : s.pkg.sections[si]? with
    | none => rw [hsec] at h; simp at h
    | some sec =>
      rw [hsec] at h
      dsimp at h
      cases h
      refine ⟨rfl, Nat.le_refl _, .removeSec si sec, rfl, ?_⟩
      dsimp [undoEntry]
      exact insertAtErase _ _ _ hsec
  | removeOption si oi =>
    dsimp [applyOp] at h
    cases hsec : s.pkg.sections[si]? with
    | none => rw [hsec] at h; simp at h
    | some sec =>
      rw [hsec] at h
      obtain ⟨st0, sn0, sa0, so0⟩ := sec
      dsimp at h
      cases hopt : so0[oi]? with
      | none => rw [hopt] at h; simp at h
      | some o =>
        rw [hopt] at h
        dsimp at h
        cases h
        refine ⟨rfl, Nat.le_refl _, .removeOpt si oi o, rfl, ?_⟩
        dsimp [undoEntry]
        rw [getSetSelf _ _ _ _ hsec]
        dsimp
        rw [insertAtErase _ _ _ hopt, List.set_set, setGetSelf _ _ _ hsec]

/-- Claim C4: applying any sequence of N mutating operations to a package
and then performing N reverts restores a tree structurally equal to the
pre-sequence tree (same name, same sections and options in the same
order), each revert popping the most recently appended journal entry and
applying the inverse of its recorded command; the journal itself is also
restored. -/
theorem claim_C4 (ops : List MOp) (s t : PState)
    (h : applyOps s ops = some t) :
    (revertN ops.length t).pkg.pname = s.pkg.pname ∧
      (revertN ops.length t).pkg.sections = s.pkg.sections ∧
      (revertN ops.length t).journal = s.journal := by
  induction ops generalizing s with
  | nil =>
    dsimp [applyOps] at h
    cases h
    exact ⟨rfl, rfl, rfl⟩
  | cons m ms ih =>
    dsimp [applyOps] at h
    cases hm : applyOp s m with
    | none => rw [hm] at h; simp at h
    | some s1 =>
      rw [hm] at h
      dsimp at h
      obtain ⟨hname, hctr, e, hj, hundo⟩ := applyOp_invert s m s1 hm
      obtain ⟨ih1, ih2, ih3⟩ := ih s1 h
      have hjt : (revertN ms.length t).journal = s.journal ++ [e] := by
        rw [ih3, hj]
      show (uci_revert (revertN ms.length t)).pkg.pname = _ ∧
        (uci_revert (revertN ms.length t)).pkg.sections = _ ∧
        (uci_revert (revertN ms.length t)).journal = _
      unfold uci_revert
      rw [hjt, List.getLast?_concat]
      dsimp
      refine ⟨?_, ?_, ?_⟩
      · rw [ih1, hname]
      · rw [ih2]
        exact hundo
      · exact List.dropLast_concat ..

end Uci

namespace Uci

/-- Claim C4 witness: a concrete three-operation sequence (change a
value, add an anonymous section, remove a section) followed by three
reverts restores the original tree and journal. -/
theorem claim_C4_witness :
    (applyOps ⟨⟨"p", [⟨"t", "s0", false, [⟨"o", "v"⟩]⟩], 0⟩, []⟩
        [.setValue 0 0 "w", .addSection ("t2") none, .removeSection 0] =
      some ⟨⟨"p", [⟨"t2", "cfg0", true, []⟩], 1⟩,
        [.change 0 0 "v", .addSec 1,
          .removeSec 0 ⟨"t", "s0", false, [⟨"o", "w"⟩]⟩]⟩) ∧
      ((revertN 3 ⟨⟨"p", [⟨"t2", "cfg0", true, []⟩], 1⟩,
          [.change 0 0 "v", .addSec 1,
            .removeSec 0 ⟨"t", "s0", false, [⟨"o", "w"⟩]⟩]⟩).pkg.pname = "p" ∧
        (revertN 3 ⟨⟨"p", [⟨"t2", "cfg0", true, []⟩], 1⟩,
          [.change 0 0 "v", .addSec 1,
            .removeSec 0 ⟨"t", "s0", false, [⟨"o", "w"⟩]⟩]⟩).pkg.sections =
          [⟨"t", "s0", false, [⟨"o", "v"⟩]⟩] ∧
        (revertN 3 ⟨⟨"p", [⟨"t2", "cfg0", true, []⟩], 1⟩,
          [.change 0 0 "v", .addSec 1,
            .removeSec 0 ⟨"t", "s0", false, [⟨"o", "w"⟩]⟩]⟩).journal = []) :=
  ⟨by decide, claim_C4 [.setValue 0 0 "w", .addSection ("t2") none, .removeSection 0]
    ⟨⟨"p", [⟨"t", "s0", false, [⟨"o", "v"⟩]⟩], 0⟩, []⟩
    ⟨⟨"p", [⟨"t2", "cfg0", true, []⟩], 1⟩,
      [.change 0 0 "v", .addSec 1,
        .removeSec 0 ⟨"t", "s0", false, [⟨"o", "w"⟩]⟩]⟩ (by decide)⟩

end Uci

namespace Uci

/-! ## Claim C5: anonymous identifiers are never reused -/

theorem digitVal_digitChar : ∀ d : Nat, d < 10 → digitVal (Nat.digitChar d) = d := by
  decide

theorem foldl_natCharsAux : ∀ (fuel n : Nat), n < fuel → ∀ a : Nat,
    (natCharsAux fuel n).foldl (fun x c => 10 * x + digitVal c) a
      = a * 10 ^ (natCharsAux fuel n).length + n := by
  intro fuel
  induction fuel with
  | zero => intro n h; omega
  | succ fuel ih =>
    intro n hn a
    by_cases h10 : n < 10
    · simp only [natCharsAux, if_pos h10, List.foldl_cons, List.foldl_nil,
        List.length_singleton]
      rw [digitVal_digitChar n h10, pow_one]
      omega
    · have hrec : n / 10 < fuel := by omega
      simp only [natCharsAux, if_neg h10]
      rw [List.foldl_append, ih (n / 10) hrec a]
      simp only [List.foldl_cons, List.foldl_nil, List.length_append,
        List.length_singleton]
      rw [digitVal_digitChar (n % 10) (by omega), pow_succ]
      have hd : 10 * (n / 10) + n % 10 = n := Nat.div_add_mod n 10
      calc 10 * (a * 10 ^ (natCharsAux fuel (n / 10)).length + n / 10) + n % 10
          = a * (10 ^ (natCharsAux fuel (n / 10)).length * 10) +
              (10 * (n / 10) + n % 10) := by ring
        _ = a * (10 ^ (natCharsAux fuel (n / 10)).length * 10) + n := by rw [hd]

theorem charsVal_natChars (n : Nat) : charsVal (natChars n) = n := by
  unfold charsVal natChars
  rw [foldl_natCharsAux (n + 1) n (by omega) 0]
  simp

theorem natChars_inj (m n : Nat) (h : natChars m = natChars n) : m = n := by
  have hm := charsVal_natChars m
  rw [h, charsVal_natChars] at hm
  omega

theorem anonName_inj (m n : Nat) (h : anonName m = anonName n) : m = n := by
  unfold anonName at h
  have h2 : ['c', 'f', 'g'] ++ natChars m = ['c', 'f', 'g'] ++ natChars n := by
    simpa using congrArg String.data h
  exact natChars_inj m n (List.append_cancel_left h2)

theorem mintHead_mem (s : PState) (a : Act) (x : String)
    (h : x ∈ mintHead s a) : x = anonName s.pkg.n_section := by
  cases a with
  | op m =>
    cases m with
    | addSection ty name =>
      cases name with
      | none => simpa [mintHead] using h
      | some n => simp [mintHead] at h
    | setValue si oi v => simp [mintHead] at h
    | addOption si n v => simp [mintHead] at h
    | removeSection si => simp [mintHead] at h
    | removeOption si oi => simp [mintHead] at h
  | revert => simp [mintHead] at h
  | commit => simp [mintHead] at h

theorem applyAct_counter_mono (s : PState) (a : Act) (t : PState)
    (h : applyAct s a = some t) : s.pkg.n_section ≤ t.pkg.n_section := by
  cases a with
  | op m =>
    exact (applyOp_invert s m t h).2.1
  | revert =>
    dsimp [applyAct] at h
    cases h
    unfold uci_revert
    cases s.journal.getLast? with
    | none => exact Nat.le_refl _
    | some e => exact Nat.le_refl _
  | commit =>
    dsimp [applyAct] at h
    cases h
    exact Nat.le_refl _

theorem applyAct_mint_succ (s : PState) (ty : String) (t : PState)
    (h : applyAct s (.op (.addSection ty none)) = some t) :
    t.pkg.n_section = s.pkg.n_section + 1 := by
  dsimp [applyAct, applyOp] at h
  cases h
  rfl

theorem mintedIds_bound : ∀ (acts : List Act) (s : PState) (x : String),
    x ∈ mintedIds s acts → ∃ k, s.pkg.n_section ≤ k ∧ x = anonName k := by
  intro acts
  induction acts with
  | nil => intro s x h; simp [mintedIds] at h
  | cons a rest ih =>
    intro s x h
    dsimp [mintedIds] at h
    cases ht : applyAct s a with
    | none => rw [ht] at h; simp at h
    | some t =>
      rw [ht] at h
      rcases List.mem_append.mp h with hx | hx
      · exact ⟨s.pkg.n_section, Nat.le_refl _, mintHead_mem s a x hx⟩
      · obtain ⟨k, hk, hxk⟩ := ih t x hx
        exact ⟨k, Nat.le_trans (applyAct_counter_mono s a t ht) hk, hxk⟩

/-- Claim C5: along any run of lifetime actions on a package (mutations,
reverts, commits — removals of anonymous sections included), the
generated anonymous-section identifiers are pairwise distinct: each is
minted from the monotonically increasing per-package counter, whose
values are never reused. -/
theorem claim_C5 (acts : List Act) (s : PState) : (mintedIds s acts).Nodup := by
  induction acts generalizing s with
  | nil => simp [mintedIds]
  | cons a rest ih =>
    dsimp [mintedIds]
    cases ht : applyAct s a with
    | none => simp
    | some t =>
      rcases ha : a with m | _ | _
      case op =>
        rcases hm : m with _ | ⟨ty, name⟩ | _ | _ | _
        case addSection =>
          cases name with
          | none =>
            rw [ha, hm] at ht
            have hsucc := applyAct_mint_succ s ty t ht
            simp only [mintHead, List.singleton_append, List.nodup_cons]
            refine ⟨?_, ih t⟩
            intro hmem
            obtain ⟨k, hk, hxk⟩ := mintedIds_bound rest t _ hmem
            have := anonName_inj _ _ hxk
            omega
          | some n => simpa [mintHead] using ih t
        case setValue => simpa [mintHead] using ih t
        case addOption => simpa [mintHead] using ih t
        case removeSection => simpa [mintHead] using ih t
        case removeOption => simpa [mintHead] using ih t
      case revert => simpa [mintHead] using ih t
      case commit => simpa [mintHead] using ih t

end Uci

namespace Uci

/-! ## Claim C7: the deletion-safe traversal -/

theorem chainNext_congr : ∀ (l : List Nat) (f g : Nat → Nat),
    (∀ x ∈ l.dropLast, f x = g x) → chainNext f l → chainNext g l := by
  intro l
  induction l with
  | nil => intro f g h hc; trivial
  | cons a l ih =>
    intro f g h hc
    cases l with
    | nil => trivial
    | cons b l2 =>
      have hd : (a :: b :: l2).dropLast = a :: (b :: l2).dropLast := rfl
      rw [hd] at h
      refine ⟨?_, ih f g ?_ hc.2⟩
      · rw [← h a (List.mem_cons_self a _)]
        exact hc.1
      · intro x hx
        exact h x (List.mem_cons_of_mem a hx)

theorem chainBack_congr : ∀ (l : List Nat) (a : Nat) (f g : Nat → Nat),
    (∀ x ∈ l, f x = g x) → chainBack f (a :: l) → chainBack g (a :: l) := by
  intro l
  induction l with
  | nil => intro a f g h hc; trivial
  | cons b l2 ih =>
    intro a f g h hc
    refine ⟨?_, ih b f g ?_ hc.2⟩
    · rw [← h b (List.mem_cons_self b _)]
      exact hc.1
    · intro x hx
      exact h x (List.mem_cons_of_mem b hx)

theorem safeForeach_ring (head : Nat) (del : Nat → Bool) :
    ∀ (ys : List Nat) (s : LState) (last : Nat),
      chainNext s.nxt (last :: ys ++ [head]) →
      chainBack s.prv (last :: ys ++ [head]) →
      ys.Nodup → head ∉ ys → last ∉ ys →
      (safeForeach (ys.length + 1) s head (s.nxt last) del).1 = ys := by
  intro ys
  induction ys with
  | nil =>
    intro s last hA hB hnd hh hl
    have h1 : s.nxt last = head := hA.1
    simp [safeForeach, h1]
  | cons a rest ih =>
    intro s last hA hB hnd hh hl
    have hA' : chainNext s.nxt (last :: a :: (rest ++ [head])) := by simpa using hA
    have hB' : chainBack s.prv (last :: a :: (rest ++ [head])) := by simpa using hB
    have h1 : s.nxt last = a := hA'.1
    have hA2 : chainNext s.nxt (a :: rest ++ [head]) := by simpa using hA'.2
    have hb1 : s.prv a = last := hB'.1
    have hB2 : chainBack s.prv (a :: rest ++ [head]) := by simpa using hB'.2
    have hahead : a ≠ head := by
      intro hcon
      exact hh (hcon ▸ List.mem_cons_self a rest)
    rw [h1]
    show (if a = head then ([], s) else
      let tmp := s.nxt a
      let s1 := if del a then listDel s a else s
      let r := safeForeach (rest.length + 1) s1 head tmp del
      (a :: r.1, r.2)).1 = a :: rest
    rw [if_neg hahead]
    dsimp only
    by_cases hdel : del a
    · rw [if_pos hdel]
      cases rest with
      | nil =>
        have h2 : s.nxt a = head := by
          simpa [chainNext] using hA2
        simp [safeForeach, h2]
      | cons r1 rest2 =>
        have hA2' : chainNext s.nxt (a :: r1 :: (rest2 ++ [head])) := by simpa using hA2
        have h2 : s.nxt a = r1 := hA2'.1
        have hB2' : chainBack s.prv (a :: r1 :: (rest2 ++ [head])) := by simpa using hB2
        have hr1ne : r1 ∉ rest2 := by
          have hnd2 := hnd
          simp [List.nodup_cons] at hnd2
          exact hnd2.2.1
        have hr1head : r1 ≠ head := by
          intro hcon
          exact hh (by simp [hcon])
        have hlrest : last ∉ r1 :: rest2 := fun hc => hl (List.mem_cons_of_mem a hc)
        have hstep : (listDel s a).nxt last = s.nxt a := by
          simp [listDel, hb1]
        have hAnew : chainNext (listDel s a).nxt (last :: (r1 :: rest2) ++ [head]) := by
          refine And.intro ?_ ?_
          · show (listDel s a).nxt last = r1
            rw [hstep, h2]
          · show chainNext (listDel s a).nxt (r1 :: rest2 ++ [head])
            refine chainNext_congr _ s.nxt _ ?_ (by simpa using hA2'.2)
            intro x hx
            have hx2 : x = r1 ∨ x ∈ rest2 := by
              rw [List.dropLast_concat] at hx
              simpa using hx
            have hxlast : x ≠ last := by
              intro hcon
              subst hcon
              rcases hx2 with hcase | hcase
              · exact hlrest (by rw [hcase]; exact List.mem_cons_self _ _)
              · exact hlrest (List.mem_cons_of_mem _ hcase)
            simp [listDel, hb1, hxlast]
        have hBnew : chainBack (listDel s a).prv (last :: (r1 :: rest2) ++ [head]) := by
          refine And.intro ?_ ?_
          · show (listDel s a).prv r1 = last
            simp [listDel, h2, hb1]
          · show chainBack (listDel s a).prv (r1 :: rest2 ++ [head])
            have htail : chainBack s.prv (r1 :: rest2 ++ [head]) := by
              simpa using hB2'.2
            rcases hx : rest2 with _ | ⟨r2, rest3⟩
            · subst hx
              refine And.intro ?_ True.intro
              have hh1 : s.prv head = r1 := by simpa [chainBack] using htail
              show (listDel s a).prv head = r1
              simp [listDel, h2, Ne.symm hr1head, hh1]
            · subst hx
              refine chainBack_congr _ _ s.prv _ ?_ htail
              intro x hx
              have hxr1 : x ≠ r1 := by
                intro hcon
                subst hcon
                rcases List.mem_append.mp hx with hx1 | hx1
                · exact hr1ne (by simpa using hx1)
                · exact hr1head (by simpa using hx1)
              simp [listDel, h2, hxr1]
        have hgoal := ih (listDel s a) last hAnew hBnew (List.nodup_cons.mp hnd).2
          (fun hc => hh (List.mem_cons_of_mem a hc)) hlrest
        rw [hstep] at hgoal
        exact congrArg (List.cons a) hgoal
    · rw [if_neg hdel]
      have hgoal := ih s a hA2 hB2 (List.nodup_cons.mp hnd).2
        (fun hc => hh (List.mem_cons_of_mem a hc))
        (List.nodup_cons.mp hnd).1
      exact congrArg (List.cons a) hgoal

/-- Claim C7: iterating a well-formed sibling ring with the deletion-safe
traversal visits exactly the elements, in order, even when the body
detaches the element currently being visited (for any deletion choice
`del`) — detaching the current element never invalidates the remainder
of the traversal. -/
theorem claim_C7 (s : LState) (head : Nat) (xs : List Nat) (del : Nat → Bool)
    (h : isRing s head xs) :
    (uci_foreach_element_safe (xs.length + 1) s head del).1 = xs := by
  obtain ⟨hA, hB, hnd, hh⟩ := h
  exact safeForeach_ring head del xs s head hA hB hnd hh hh

end Uci

namespace Uci

/-- Claim C7 witness: a concrete four-node ring (sentinel 0, elements
1, 2, 3) traversed while detaching every visited element still visits
1, 2, 3 in order. -/
theorem claim_C7_witness :
    isRing ⟨fun x => if x = 0 then 1 else if x = 1 then 2 else if x = 2 then 3 else 0,
        fun x => if x = 0 then 3 else if x = 1 then 0 else if x = 2 then 1 else 2⟩
      0 [1, 2, 3] ∧
      (uci_foreach_element_safe 4
          ⟨fun x => if x = 0 then 1 else if x = 1 then 2 else if x = 2 then 3 else 0,
            fun x => if x = 0 then 3 else if x = 1 then 0 else if x = 2 then 1 else 2⟩
          0 (fun _ => true)).1 = [1, 2, 3] := by
  have hring : isRing
      ⟨fun x => if x = 0 then 1 else if x = 1 then 2 else if x = 2 then 3 else 0,
        fun x => if x = 0 then 3 else if x = 1 then 0 else if x = 2 then 1 else 2⟩
      0 [1, 2, 3] := by
    refine ⟨?_, ?_, by decide, by decide⟩
    · simp [chainNext]
    · simp [chainBack]
  exact ⟨hring, claim_C7 _ 0 [1, 2, 3] (fun _ => true) hring⟩

end Uci

namespace Uci

/-! ## Tokenizing the canonical export lines -/

theorem string_eta (s : String) : String.mk s.data = s := rfl

theorem tokStep_ws_out (toks : List String) (p : Nat) :
    tokStep ⟨.out, toks, p⟩ ' ' = ⟨.out, toks, p + 1⟩ := rfl

theorem tokStep_openq (toks : List String) (p : Nat) :
    tokStep ⟨.out, toks, p⟩ '\'' = ⟨.quoted '\'' p [], toks, p + 1⟩ := rfl

theorem foldl_tokStep_quoted :
    ∀ (s : List Char) (acc : List Char) (toks : List String) (b p : Nat)
      (rest : List Char), ∃ p2,
      List.foldl tokStep ⟨.quoted '\'' b acc, toks, p⟩ (escapeQ s ++ '\'' :: rest)
        = List.foldl tokStep ⟨.out, toks ++ [String.mk (acc ++ s)], p2⟩ rest := by
  intro s
  induction s with
  | nil =>
    intro acc toks b p rest
    refine ⟨p + 1, ?_⟩
    simp [escapeQ, tokStep]
  | cons c cs ih =>
    intro acc toks b p rest
    by_cases hc : c = '\'' ∨ c = '\\'
    · have he : escapeQ (c :: cs) = '\\' :: c :: escapeQ cs := by
        rcases hc with h | h <;> simp [escapeQ, h]
      rw [he]
      have hs1 : tokStep ⟨.quoted '\'' b acc, toks, p⟩ '\\'
          = ⟨.esc '\'' b acc, toks, p + 1⟩ := rfl
      have hs2 : tokStep ⟨.esc '\'' b acc, toks, p + 1⟩ c
          = ⟨.quoted '\'' b (acc ++ [c]), toks, p + 2⟩ := rfl
      rw [List.cons_append, List.cons_append, List.foldl_cons, hs1,
        List.foldl_cons, hs2]
      obtain ⟨p2, h3⟩ := ih (acc ++ [c]) toks b (p + 2) rest
      refine ⟨p2, ?_⟩
      rw [h3]
      simp
    · push_neg at hc
      have he : escapeQ (c :: cs) = c :: escapeQ cs := by
        simp [escapeQ, hc.1, hc.2]
      rw [he]
      have hs1 : tokStep ⟨.quoted '\'' b acc, toks, p⟩ c
          = ⟨.quoted '\'' b (acc ++ [c]), toks, p + 1⟩ := by
        simp [tokStep, hc.1, hc.2]
      rw [List.cons_append, List.foldl_cons, hs1]
      obtain ⟨p2, h3⟩ := ih (acc ++ [c]) toks b (p + 1) rest
      refine ⟨p2, ?_⟩
      rw [h3]
      simp

theorem foldl_quoteTok (str : String) (toks : List String) (p : Nat)
    (rest : List Char) : ∃ p2,
    List.foldl tokStep ⟨.out, toks, p⟩ (quoteTok str ++ rest)
      = List.foldl tokStep ⟨.out, toks ++ [str], p2⟩ rest := by
  unfold quoteTok
  rw [List.cons_append, List.foldl_cons, tokStep_openq, List.append_assoc,
    List.singleton_append]
  obtain ⟨p2, h3⟩ := foldl_tokStep_quoted str.data [] toks p (p + 1) rest
  refine ⟨p2, ?_⟩
  rw [h3, List.nil_append, string_eta]

end Uci

namespace Uci

theorem foldl_pkg_kw :
    List.foldl tokStep ⟨.out, [], 0⟩ "package ".data = ⟨.out, ["package"], 8⟩ := by
  decide

theorem foldl_cfg_kw :
    List.foldl tokStep ⟨.out, [], 0⟩ "config ".data = ⟨.out, ["config"], 7⟩ := by
  decide

theorem foldl_opt_kw :
    List.foldl tokStep ⟨.out, [], 1⟩ "option ".data = ⟨.out, ["option"], 8⟩ := by
  decide

theorem tokenizeLine_pkg (n : String) :
    tokenizeLine (stmtChars (.pkg n)) = .ok ["package", n] := by
  show tokFinish (List.foldl tokStep ⟨.out, [], 0⟩ ("package ".data ++ quoteTok n)) = _
  rw [← List.append_nil (quoteTok n), List.foldl_append, foldl_pkg_kw]
  obtain ⟨p2, hq⟩ := foldl_quoteTok n ["package"] 8 []
  rw [hq]
  rfl

theorem tokenizeLine_sec_anon (t : String) :
    tokenizeLine (stmtChars (.sec t none)) = .ok ["config", t] := by
  show tokFinish (List.foldl tokStep ⟨.out, [], 0⟩ ("config ".data ++ quoteTok t)) = _
  rw [← List.append_nil (quoteTok t), List.foldl_append, foldl_cfg_kw]
  obtain ⟨p2, hq⟩ := foldl_quoteTok t ["config"] 7 []
  rw [hq]
  rfl

theorem tokenizeLine_sec_named (t n : String) :
    tokenizeLine (stmtChars (.sec t (some n))) = .ok ["config", t, n] := by
  show tokFinish (List.foldl tokStep ⟨.out, [], 0⟩
    ("config ".data ++ quoteTok t ++ (' ' :: quoteTok n))) = _
  rw [List.append_assoc, List.foldl_append, foldl_cfg_kw]
  obtain ⟨p2, hq⟩ := foldl_quoteTok t ["config"] 7 (' ' :: quoteTok n)
  rw [hq, List.foldl_cons, tokStep_ws_out]
  rw [← List.append_nil (quoteTok n)]
  obtain ⟨p3, hq2⟩ := foldl_quoteTok n (["config"] ++ [t]) (p2 + 1) []
  rw [hq2]
  rfl

theorem tokenizeLine_opt (n v : String) :
    tokenizeLine (stmtChars (.opt n v)) = .ok ["option", n, v] := by
  show tokFinish (List.foldl tokStep ⟨.out, [], 0⟩
    ('\t' :: ("option ".data ++ quoteTok n ++ (' ' :: quoteTok v)))) = _
  rw [List.foldl_cons]
  have h0 : tokStep ⟨.out, [], 0⟩ '\t' = ⟨.out, [], 1⟩ := rfl
  rw [h0, List.append_assoc, List.foldl_append, foldl_opt_kw]
  obtain ⟨p2, hq⟩ := foldl_quoteTok n ["option"] 8 (' ' :: quoteTok v)
  rw [hq, List.foldl_cons, tokStep_ws_out]
  rw [← List.append_nil (quoteTok v)]
  obtain ⟨p3, hq2⟩ := foldl_quoteTok v (["option"] ++ [n]) (p2 + 1) []
  rw [hq2]
  rfl

theorem stmtOfToks_pkg (n : String) :
    stmtOfToks ["package", n] = .ok (some (.pkg n)) := rfl

theorem stmtOfToks_sec_anon (t : String) :
    stmtOfToks ["config", t] = .ok (some (.sec t none)) := rfl

theorem stmtOfToks_sec_named (t n : String) :
    stmtOfToks ["config", t, n] = .ok (some (.sec t (some n))) := rfl

theorem stmtOfToks_opt (n v : String) :
    stmtOfToks ["option", n, v] = .ok (some (.opt n v)) := rfl

theorem isComment_stmt (st : Stmt) : isComment (stmtChars st) = false := by
  cases st with
  | pkg n => rfl
  | sec t name => cases name <;> rfl
  | opt n v => rfl

theorem runLines_cons_stmt (st : Stmt) (ls : List (List Char)) (ln : Nat)
    (b : PBuild) :
    runLines (stmtChars st :: ls) ln b
      = match applyStmt b st with
        | .error r => .error ⟨ln, 0, r⟩
        | .ok bb => runLines ls (ln + 1) bb := by
  cases st with
  | pkg n =>
    simp only [runLines, isComment_stmt, Bool.false_eq_true, if_false,
      tokenizeLine_pkg, stmtOfToks_pkg]
  | sec t name =>
    cases name with
    | none =>
      simp only [runLines, isComment_stmt, Bool.false_eq_true, if_false,
        tokenizeLine_sec_anon, stmtOfToks_sec_anon]
    | some nm =>
      simp only [runLines, isComment_stmt, Bool.false_eq_true, if_false,
        tokenizeLine_sec_named, stmtOfToks_sec_named]
  | opt n v =>
    simp only [runLines, isComment_stmt, Bool.false_eq_true, if_false,
      tokenizeLine_opt, stmtOfToks_opt]

theorem runLines_nil_line (ln : Nat) (b : PBuild) :
    runLines [[]] ln b = .ok b := rfl

theorem runLines_stmts : ∀ (sts : List Stmt) (ls : List (List Char)) (ln : Nat)
    (b bb : PBuild), applyStmts b sts = .ok bb →
    runLines ((sts.map stmtChars) ++ ls) ln b = runLines ls (ln + sts.length) bb := by
  intro sts
  induction sts with
  | nil =>
    intro ls ln b bb h
    dsimp [applyStmts] at h
    cases h
    simp
  | cons st rest ih =>
    intro ls ln b bb h
    dsimp [applyStmts] at h
    cases hst : applyStmt b st with
    | error r => rw [hst] at h; simp at h
    | ok b1 =>
      rw [hst] at h
      dsimp at h
      rw [List.map_cons, List.cons_append, runLines_cons_stmt, hst]
      dsimp only
      rw [ih ls (ln + 1) b1 bb h, List.length_cons]
      congr 1
      omega

end Uci

namespace Uci

/-! ## Running the builder over the export's statements -/

theorem applyStmts_append : ∀ (l1 : List Stmt) (l2 : List Stmt) (b b1 : PBuild),
    applyStmts b l1 = .ok b1 → applyStmts b (l1 ++ l2) = applyStmts b1 l2 := by
  intro l1
  induction l1 with
  | nil =>
    intro l2 b b1 h
    dsimp [applyStmts] at h
    cases h
    rfl
  | cons st rest ih =>
    intro l2 b b1 h
    dsimp [applyStmts] at h
    cases hst : applyStmt b st with
    | error r => rw [hst] at h; simp at h
    | ok b2 =>
      rw [hst] at h
      dsimp at h
      show applyStmts b (st :: (rest ++ l2)) = _
      dsimp [applyStmts]
      rw [hst]
      exact ih l2 b2 b1 h

theorem applyStmts_opts : ∀ (os : List UOption) (bn : Option String) (c : Nat)
    (st0 sn0 : String) (sa0 : Bool) (op0 : List UOption) (rsecs : List USection),
    applyStmts ⟨bn, c, ⟨st0, sn0, sa0, op0⟩ :: rsecs⟩
        (os.map (fun o => Stmt.opt o.oname o.value))
      = .ok ⟨bn, c, ⟨st0, sn0, sa0, os.reverse ++ op0⟩ :: rsecs⟩ := by
  intro os
  induction os with
  | nil =>
    intro bn c st0 sn0 sa0 op0 rsecs
    simp [applyStmts]
  | cons o os ih =>
    intro bn c st0 sn0 sa0 op0 rsecs
    obtain ⟨on0, ov0⟩ := o
    dsimp [applyStmts, applyStmt]
    rw [ih bn c st0 sn0 sa0 (⟨on0, ov0⟩ :: op0) rsecs]
    simp

theorem applyStmts_sec (s : USection) (b : PBuild) :
    applyStmts b (secStmts s)
      = .ok ⟨b.bname, b.count + (if s.anonymous then 1 else 0),
          ⟨s.stype, (if s.anonymous then anonName b.count else s.sname),
            s.anonymous, s.options.reverse⟩ :: b.rsecs⟩ := by
  obtain ⟨st0, sn0, sa0, op0⟩ := s
  obtain ⟨bn, c, rsecs⟩ := b
  cases sa0 with
  | false =>
    dsimp [secStmts, applyStmts, applyStmt]
    rw [applyStmts_opts]
    simp
  | true =>
    dsimp [secStmts, applyStmts, applyStmt]
    rw [applyStmts_opts]
    simp

theorem applyStmts_sections : ∀ (ss : List USection) (b : PBuild),
    applyStmts b ((ss.map secStmts).flatten)
      = .ok ⟨b.bname, b.count + anonCount ss,
          ((regenSecs b.count ss).map revSec).reverse ++ b.rsecs⟩ := by
  intro ss
  induction ss with
  | nil =>
    intro b
    simp [applyStmts, anonCount, regenSecs]
  | cons s ss ih =>
    intro b
    rw [List.map_cons, List.flatten_cons,
      applyStmts_append _ _ _ _ (applyStmts_sec s b), ih]
    dsimp
    simp only [anonCount, regenSecs, List.map_cons, List.reverse_cons,
      List.append_assoc, List.cons_append, List.nil_append]
    congr 2
    omega

end Uci

namespace Uci

/-! ## Newline-freeness of export lines, and splitting them back -/

theorem escapeQ_noNL : ∀ (cs : List Char), '\n' ∉ cs → '\n' ∉ escapeQ cs := by
  intro cs
  induction cs with
  | nil => intro h; simp [escapeQ]
  | cons c rest ih =>
    intro h hmem
    have hc : c ≠ '\n' := fun hcon => h (by simp [hcon])
    have hr : '\n' ∉ rest := fun hcon => h (List.mem_cons_of_mem c hcon)
    have hmem2 : '\n' ∈ (if c = '\'' || c = '\\' then ['\\', c] else [c]) ++
        escapeQ rest := by
      simpa [escapeQ] using hmem
    rcases List.mem_append.mp hmem2 with h1 | h1
    · by_cases hq : c = '\'' || c = '\\'
      · rw [if_pos hq] at h1
        rcases List.mem_cons.mp h1 with h2 | h2
        · exact absurd h2 (by decide)
        · have h2x : '\n' = c := by simpa using h2
          exact hc h2x.symm
      · rw [if_neg hq] at h1
        have h1x : '\n' = c := by simpa using h1
        exact hc h1x.symm
    · exact ih hr h1

theorem quoteTok_noNL (s : String) (h : nlFreeStr s) : '\n' ∉ quoteTok s := by
  intro hmem
  unfold quoteTok at hmem
  rcases List.mem_cons.mp hmem with h1 | h1
  · exact absurd h1 (by decide)
  · rcases List.mem_append.mp h1 with h2 | h2
    · exact escapeQ_noNL s.data h h2
    · exact absurd h2 (by decide)

theorem stmtChars_noNL (st : Stmt) (h : nlFreeStmt st) : '\n' ∉ stmtChars st := by
  cases st with
  | pkg n =>
    intro hmem
    rcases List.mem_append.mp hmem with h1 | h1
    · exact absurd h1 (by decide)
    · exact quoteTok_noNL n h h1
  | sec t name =>
    cases name with
    | none =>
      intro hmem
      rcases List.mem_append.mp hmem with h1 | h1
      · exact absurd h1 (by decide)
      · exact quoteTok_noNL t h.1 h1
    | some nm =>
      intro hmem
      rcases List.mem_append.mp hmem with h1 | h1
      · rcases List.mem_append.mp h1 with h2 | h2
        · exact absurd h2 (by decide)
        · exact quoteTok_noNL t h.1 h2
      · rcases List.mem_cons.mp h1 with h2 | h2
        · exact absurd h2 (by decide)
        · exact quoteTok_noNL nm (h.2 nm rfl) h2
  | opt n v =>
    intro hmem
    rcases List.mem_cons.mp hmem with h1 | h1
    · exact absurd h1 (by decide)
    · rcases List.mem_append.mp h1 with h2 | h2
      · rcases List.mem_append.mp h2 with h3 | h3
        · exact absurd h3 (by decide)
        · exact quoteTok_noNL n h.1 h3
      · rcases List.mem_cons.mp h2 with h3 | h3
        · exact absurd h3 (by decide)
        · exact quoteTok_noNL v h.2 h3

theorem stmtsOf_nlFree (p : UPackage) (hw : nlFreePkg p) :
    ∀ st ∈ stmtsOf p, nlFreeStmt st := by
  intro st hst
  unfold stmtsOf at hst
  rcases List.mem_cons.mp hst with h1 | h1
  · subst h1
    exact hw.1
  · rw [List.mem_flatten] at h1
    obtain ⟨l, hl, hstl⟩ := h1
    rw [List.mem_map] at hl
    obtain ⟨s, hs, rfl⟩ := hl
    have hsec := hw.2 s hs
    unfold secStmts at hstl
    rcases List.mem_cons.mp hstl with h2 | h2
    · subst h2
      refine ⟨hsec.1, ?_⟩
      intro n hn
      by_cases ha : s.anonymous
      · simp [ha] at hn
      · simp [ha] at hn
        exact hn ▸ hsec.2.1
    · rw [List.mem_map] at h2
      obtain ⟨o, ho, rfl⟩ := h2
      exact hsec.2.2 o ho

theorem splitLines_append : ∀ (a rest : List Char), '\n' ∉ a →
    splitLines (a ++ '\n' :: rest) = a :: splitLines rest := by
  intro a
  induction a with
  | nil =>
    intro rest h
    simp [splitLines]
  | cons c a ih =>
    intro rest h
    have hc : c ≠ '\n' := fun hcon => h (by simp [hcon])
    have ha : '\n' ∉ a := fun hcon => h (List.mem_cons_of_mem c hcon)
    rw [List.cons_append]
    conv_lhs => rw [splitLines]
    rw [if_neg hc, ih rest ha]

theorem splitLines_flatten : ∀ (sts : List Stmt),
    (∀ st ∈ sts, '\n' ∉ stmtChars st) →
    splitLines ((sts.map (fun st => stmtChars st ++ ['\n'])).flatten)
      = sts.map stmtChars ++ [[]] := by
  intro sts
  induction sts with
  | nil => intro h; rfl
  | cons st rest ih =>
    intro h
    rw [List.map_cons, List.flatten_cons, List.append_assoc,
      List.singleton_append,
      splitLines_append _ _ (h st (List.mem_cons_self st rest)),
      ih (fun x hx => h x (List.mem_cons_of_mem st hx))]
    rfl

/-! ## Parsing the export back -/

theorem revSec_revSec (s : USection) : revSec (revSec s) = s := by
  obtain ⟨a, b, c, d⟩ := s
  simp [revSec]

theorem map_revSec_revSec : ∀ (l : List USection),
    l.map (fun s => revSec (revSec s)) = l := by
  intro l
  induction l with
  | nil => rfl
  | cons a l ih => simp [revSec_revSec, ih]

theorem stmtsOf_run (p : UPackage) :
    applyStmts ⟨none, 0, []⟩ (stmtsOf p)
      = .ok ⟨some p.pname, anonCount p.sections,
          ((regenSecs 0 p.sections).map revSec).reverse⟩ := by
  unfold stmtsOf
  dsimp [applyStmts, applyStmt]
  rw [applyStmts_sections]
  simp

theorem finalize_regen (p : UPackage) (hw : nlFreeStr p.pname)
    (fb : Option String) :
    finalize ⟨some p.pname, anonCount p.sections,
        ((regenSecs 0 p.sections).map revSec).reverse⟩ fb = .ok (regenPkg p) := by
  unfold finalize
  dsimp [Option.orElse]
  rw [if_neg hw]
  unfold regenPkg
  congr 1
  rw [List.map_reverse, List.reverse_reverse, List.map_map]
  have hcomp : (revSec ∘ revSec) = fun s => revSec (revSec s) := rfl
  rw [hcomp, map_revSec_revSec]

theorem parse_export (p : UPackage) (hw : nlFreePkg p) (fb2 : Option String) :
    parseText (uci_export_pkg p) fb2 = .ok (regenPkg p) := by
  unfold parseText uci_export_pkg
  rw [show (String.mk (exportChars p)).data = exportChars p from rfl]
  unfold exportChars
  rw [splitLines_flatten (stmtsOf p)
    (fun st hst => stmtChars_noNL st (stmtsOf_nlFree p hw st hst))]
  rw [runLines_stmts (stmtsOf p) [[]] 1 ⟨none, 0, []⟩ _ (stmtsOf_run p)]
  rw [runLines_nil_line]
  exact finalize_regen p hw.1 fb2

end Uci

namespace Uci

/-! ## Strings produced by a successful import are newline-free -/

theorem splitLines_noNL : ∀ (cs : List Char) (l : List Char),
    l ∈ splitLines cs → '\n' ∉ l := by
  intro cs
  induction cs with
  | nil =>
    intro l hl
    simp [splitLines] at hl
    subst hl
    simp
  | cons c rest ih =>
    intro l hl
    by_cases hc : c = '\n'
    · rw [show splitLines (c :: rest) = [] :: splitLines rest from by
        simp [splitLines, hc]] at hl
      rcases List.mem_cons.mp hl with h1 | h1
      · subst h1; simp
      · exact ih l h1
    · cases hsp : splitLines rest with
      | nil =>
        rw [show splitLines (c :: rest) = [[c]] from by
          simp [splitLines, hc, hsp]] at hl
        have hl2 : l = [c] := by simpa using hl
        subst hl2
        intro hm
        have : '\n' = c := by simpa using hm
        exact hc this.symm
      | cons l0 ls =>
        rw [show splitLines (c :: rest) = (c :: l0) :: ls from by
          simp [splitLines, hc, hsp]] at hl
        rcases List.mem_cons.mp hl with h1 | h1
        · subst h1
          intro hm
          rcases List.mem_cons.mp hm with h2 | h2
          · exact hc h2.symm
          · exact ih l0 (by rw [hsp]; exact List.mem_cons_self l0 ls) h2
        · exact ih l (by rw [hsp]; exact List.mem_cons_of_mem l0 h1)

theorem tokStep_noNL (s : TState) (c : Char) (hc : c ≠ '\n')
    (hs : nlFreeState s) : nlFreeState (tokStep s c) := by
  obtain ⟨mode, toks, p⟩ := s
  obtain ⟨htoks, hmode⟩ := hs
  have hpush : ∀ acc : List Char, '\n' ∉ acc →
      ∀ t ∈ toks ++ [String.mk acc], '\n' ∉ t.data := by
    intro acc hacc t ht
    rcases List.mem_append.mp ht with h1 | h1
    · exact htoks t h1
    · have : t = String.mk acc := by simpa using h1
      subst this
      exact hacc
  have hsnoc : ∀ acc : List Char, '\n' ∉ acc → '\n' ∉ acc ++ [c] := by
    intro acc hacc hm
    rcases List.mem_append.mp hm with h1 | h1
    · exact hacc h1
    · have h1x : '\n' = c := by simpa using h1
      exact hc h1x.symm
  cases mode with
  | out =>
    dsimp [tokStep]
    by_cases hw : isWs c
    · rw [if_pos hw]
      exact ⟨htoks, trivial⟩
    · rw [if_neg hw]
      by_cases hq : c = '\'' || c = '"'
      · rw [if_pos hq]
        exact ⟨htoks, by simp [nlFreeMode]⟩
      · rw [if_neg hq]
        refine ⟨htoks, ?_⟩
        intro hm
        have hmx : '\n' = c := by simpa using hm
        exact hc hmx.symm
  | bare acc =>
    dsimp [tokStep]
    by_cases hw : isWs c
    · rw [if_pos hw]
      exact ⟨hpush acc hmode, trivial⟩
    · rw [if_neg hw]
      exact ⟨htoks, hsnoc acc hmode⟩
  | quoted q b acc =>
    dsimp [tokStep]
    by_cases hq : c = q
    · rw [if_pos hq]
      exact ⟨hpush acc hmode, trivial⟩
    · rw [if_neg hq]
      by_cases hb : c = '\\'
      · rw [if_pos hb]
        exact ⟨htoks, hmode⟩
      · rw [if_neg hb]
        exact ⟨htoks, hsnoc acc hmode⟩
  | esc q b acc =>
    dsimp [tokStep]
    exact ⟨htoks, hsnoc acc hmode⟩

theorem foldl_tokStep_noNL : ∀ (cs : List Char) (s : TState),
    '\n' ∉ cs → nlFreeState s → nlFreeState (List.foldl tokStep s cs) := by
  intro cs
  induction cs with
  | nil => intro s hcs hs; exact hs
  | cons c rest ih =>
    intro s hcs hs
    rw [List.foldl_cons]
    exact ih (tokStep s c)
      (fun hm => hcs (List.mem_cons_of_mem c hm))
      (tokStep_noNL s c (fun hcon => hcs (by simp [hcon])) hs)

theorem tokenizeLine_noNL (cs : List Char) (ts : List String)
    (hcs : '\n' ∉ cs) (h : tokenizeLine cs = .ok ts) :
    ∀ t ∈ ts, '\n' ∉ t.data := by
  unfold tokenizeLine at h
  have hst := foldl_tokStep_noNL cs ⟨.out, [], 0⟩ hcs ⟨by simp, trivial⟩
  generalize hS : List.foldl tokStep ⟨.out, [], 0⟩ cs = S at h hst
  obtain ⟨mode, toks, p⟩ := S
  obtain ⟨htoks, hmode⟩ := hst
  cases mode with
  | out =>
    dsimp [tokFinish] at h
    cases h
    exact htoks
  | bare acc =>
    dsimp [tokFinish] at h
    cases h
    intro t ht
    rcases List.mem_append.mp ht with h1 | h1
    · exact htoks t h1
    · have : t = String.mk acc := by simpa using h1
      subst this
      exact hmode
  | quoted q b acc => simp [tokFinish] at h
  | esc q b acc => simp [tokFinish] at h

theorem stmtOfToks_nlFree (ts : List String) (st : Stmt)
    (hts : ∀ t ∈ ts, '\n' ∉ t.data) (h : stmtOfToks ts = .ok (some st)) :
    nlFreeStmt st := by
  cases ts with
  | nil => simp [stmtOfToks] at h
  | cons kw args =>
    dsimp [stmtOfToks] at h
    split_ifs at h with h1 h2 h3
    · cases args with
      | nil => simp at h
      | cons n rest =>
        cases rest with
        | nil =>
          have hn := hts n (by simp)
          dsimp at h
          cases h
          exact hn
        | cons x y => simp at h
    · cases args with
      | nil => simp at h
      | cons t rest =>
        cases rest with
        | nil =>
          have ht := hts t (by simp)
          dsimp at h
          cases h
          exact ⟨ht, by intro n hn; simp at hn⟩
        | cons n rest2 =>
          cases rest2 with
          | nil =>
            have ht := hts t (by simp)
            have hn := hts n (by simp)
            dsimp at h
            cases h
            refine ⟨ht, ?_⟩
            intro m hm
            have : n = m := by simpa using hm
            exact this ▸ hn
          | cons x y => simp at h
    · cases args with
      | nil => simp at h
      | cons n rest =>
        cases rest with
        | nil => simp at h
        | cons v rest2 =>
          cases rest2 with
          | nil =>
            have hn := hts n (by simp)
            have hv := hts v (by simp)
            dsimp at h
            cases h
            exact ⟨hn, hv⟩
          | cons x y => simp at h

theorem natCharsAux_digits : ∀ (fuel n : Nat), ∀ c ∈ natCharsAux fuel n,
    ∃ d, d < 10 ∧ c = Nat.digitChar d := by
  intro fuel
  induction fuel with
  | zero => intro n c hc; simp [natCharsAux] at hc
  | succ fuel ih =>
    intro n c hc
    by_cases h10 : n < 10
    · rw [show natCharsAux (fuel + 1) n = [Nat.digitChar n] from by
        simp [natCharsAux, h10]] at hc
      have : c = Nat.digitChar n := by simpa using hc
      exact ⟨n, h10, this⟩
    · rw [show natCharsAux (fuel + 1) n
          = natCharsAux fuel (n / 10) ++ [Nat.digitChar (n % 10)] from by
        simp [natCharsAux, h10]] at hc
      rcases List.mem_append.mp hc with h1 | h1
      · exact ih (n / 10) c h1
      · have : c = Nat.digitChar (n % 10) := by simpa using h1
        exact ⟨n % 10, Nat.mod_lt n (by omega), this⟩

theorem anonName_noNL (k : Nat) : nlFreeStr (anonName k) := by
  unfold nlFreeStr anonName
  intro hmem
  have hmem2 : '\n' ∈ ['c', 'f', 'g'] ++ natChars k := hmem
  rcases List.mem_append.mp hmem2 with h1 | h1
  · exact absurd h1 (by decide)
  · obtain ⟨d, hd, hcd⟩ := natCharsAux_digits (k + 1) k '\n' h1
    have hall : ∀ d : Nat, d < 10 → Nat.digitChar d ≠ '\n' := by decide
    exact hall d hd hcd.symm

end Uci

namespace Uci

theorem applyStmt_nlFree (b : PBuild) (st : Stmt) (bb : PBuild)
    (hb : nlFreeBuild b) (hst : nlFreeStmt st) (h : applyStmt b st = .ok bb) :
    nlFreeBuild bb := by
  obtain ⟨hbn, hbs⟩ := hb
  cases st with
  | pkg n =>
    dsimp [applyStmt] at h
    cases h
    refine ⟨?_, hbs⟩
    intro m hm
    have : n = m := by simpa using hm
    exact this ▸ hst
  | sec t name =>
    cases name with
    | some n =>
      dsimp [applyStmt] at h
      cases h
      refine ⟨hbn, ?_⟩
      intro s hs
      rcases List.mem_cons.mp hs with h1 | h1
      · subst h1
        exact ⟨hst.1, hst.2 n rfl, by intro o ho; simp at ho⟩
      · exact hbs s h1
    | none =>
      dsimp [applyStmt] at h
      cases h
      refine ⟨hbn, ?_⟩
      intro s hs
      rcases List.mem_cons.mp hs with h1 | h1
      · subst h1
        exact ⟨hst.1, anonName_noNL b.count, by intro o ho; simp at ho⟩
      · exact hbs s h1
  | opt n v =>
    dsimp [applyStmt] at h
    cases hrs : b.rsecs with
    | nil => rw [hrs] at h; simp at h
    | cons s0 rest =>
      rw [hrs] at h
      dsimp at h
      cases h
      refine ⟨hbn, ?_⟩
      intro s hs
      rcases List.mem_cons.mp hs with h1 | h1
      · subst h1
        have hs0 := hbs s0 (by rw [hrs]; exact List.mem_cons_self s0 rest)
        refine ⟨hs0.1, hs0.2.1, ?_⟩
        intro o ho
        rcases List.mem_cons.mp ho with h2 | h2
        · subst h2
          exact ⟨hst.1, hst.2⟩
        · exact hs0.2.2 o h2
      · exact hbs s (by rw [hrs]; exact List.mem_cons_of_mem s0 h1)

theorem runLines_nlFree : ∀ (ls : List (List Char)) (ln : Nat) (b bb : PBuild),
    (∀ l ∈ ls, '\n' ∉ l) → nlFreeBuild b → runLines ls ln b = .ok bb →
    nlFreeBuild bb := by
  intro ls
  induction ls with
  | nil =>
    intro ln b bb hls hb h
    dsimp [runLines] at h
    cases h
    exact hb
  | cons l rest ih =>
    intro ln b bb hls hb h
    have hl : '\n' ∉ l := hls l (List.mem_cons_self l rest)
    have hrest : ∀ x ∈ rest, '\n' ∉ x := fun x hx => hls x (List.mem_cons_of_mem l hx)
    dsimp [runLines] at h
    by_cases hcm : isComment l
    · rw [if_pos hcm] at h
      exact ih (ln + 1) b bb hrest hb h
    · rw [if_neg hcm] at h
      cases htok : tokenizeLine l with
      | error e =>
        rw [htok] at h
        obtain ⟨r, byte⟩ := e
        simp at h
      | ok ts =>
        rw [htok] at h
        dsimp at h
        have hts := tokenizeLine_noNL l ts hl htok
        cases hstm : stmtOfToks ts with
        | error r => rw [hstm] at h; simp at h
        | ok ost =>
          rw [hstm] at h
          cases ost with
          | none =>
            dsimp at h
            exact ih (ln + 1) b bb hrest hb h
          | some st =>
            dsimp at h
            have hstf := stmtOfToks_nlFree ts st hts hstm
            cases happ : applyStmt b st with
            | error r => rw [happ] at h; simp at h
            | ok b1 =>
              rw [happ] at h
              dsimp at h
              exact ih (ln + 1) b1 bb hrest (applyStmt_nlFree b st b1 hb hstf happ) h

theorem finalize_nlFree (b : PBuild) (fb : Option String) (p : UPackage)
    (hb : nlFreeBuild b) (h : finalize b fb = .ok p) : nlFreePkg p := by
  unfold finalize at h
  cases hn : b.bname.orElse (fun _ => fb) with
  | none => rw [hn] at h; simp at h
  | some n =>
    rw [hn] at h
    dsimp at h
    by_cases hg : '\n' ∈ n.data
    · rw [if_pos hg] at h; simp at h
    · rw [if_neg hg] at h
      cases h
      refine ⟨hg, ?_⟩
      intro s hs
      rw [List.mem_reverse, List.mem_map] at hs
      obtain ⟨s0, hs0, rfl⟩ := hs
      have hsec := hb.2 s0 hs0
      refine ⟨hsec.1, hsec.2.1, ?_⟩
      intro o ho
      rw [revSec, List.mem_reverse] at ho
      exact hsec.2.2 o ho

theorem parseText_nlFree (input : String) (fb : Option String) (p : UPackage)
    (h : parseText input fb = .ok p) : nlFreePkg p := by
  unfold parseText at h
  cases hr : runLines (splitLines input.data) 1 ⟨none, 0, []⟩ with
  | error e => rw [hr] at h; simp at h
  | ok b =>
    rw [hr] at h
    dsimp at h
    have hb : nlFreeBuild b :=
      runLines_nlFree (splitLines input.data) 1 ⟨none, 0, []⟩ b
        (fun l hl => splitLines_noNL input.data l hl)
        ⟨by intro n hn; simp at hn, by intro s hs; simp at hs⟩ hr
    exact finalize_nlFree b fb p hb h

end Uci

namespace Uci

/-! ## Claim C2: the import/export round trip -/

theorem secEq_regen (s : USection) (c : Nat) :
    secEq (regenSec c s) s = true := by
  cases ha : s.anonymous <;> simp [secEq, regenSec, ha]

theorem regenSecs_length : ∀ (ss : List USection) (c : Nat),
    (regenSecs c ss).length = ss.length := by
  intro ss
  induction ss with
  | nil => intro c; rfl
  | cons s ss ih => intro c; simp [regenSecs, ih]

theorem regenSecs_zip_all : ∀ (ss : List USection) (c : Nat),
    (((regenSecs c ss).zip ss).all fun x => secEq x.1 x.2) = true := by
  intro ss
  induction ss with
  | nil => intro c; rfl
  | cons s ss ih =>
    intro c
    simp only [regenSecs, List.zip_cons_cons, List.all_cons, Bool.and_eq_true]
    exact ⟨secEq_regen s c, ih _⟩

theorem pkgEq_regen (p : UPackage) : pkgEq (regenPkg p) p = true := by
  unfold pkgEq regenPkg
  simp [regenSecs_length, regenSecs_zip_all]

theorem anonNamesOf_regenSecs : ∀ (ss : List USection) (c : Nat),
    anonNamesOf (regenSecs c ss) = (List.range' c (anonCount ss)).map anonName := by
  intro ss
  induction ss with
  | nil => intro c; rfl
  | cons s ss ih =>
    intro c
    cases ha : s.anonymous with
    | true =>
      have hfilter : anonNamesOf (regenSecs c (s :: ss))
          = anonName c :: anonNamesOf (regenSecs (c + 1) ss) := by
        simp [anonNamesOf, regenSecs, regenSec, List.filter_cons, ha]
      rw [hfilter, ih (c + 1)]
      have hcount : anonCount (s :: ss) = anonCount ss + 1 := by
        simp [anonCount, ha]; omega
      rw [hcount, List.range'_succ, List.map_cons]
    | false =>
      have hfilter : anonNamesOf (regenSecs c (s :: ss))
          = anonNamesOf (regenSecs c ss) := by
        simp [anonNamesOf, regenSecs, regenSec, List.filter_cons, ha]
      have hcount : anonCount (s :: ss) = anonCount ss := by
        simp [anonCount, ha]
      rw [hfilter, hcount]
      have := ih c
      simpa using this

theorem anonNamesOf_regen_nodup (p : UPackage) :
    (anonNamesOf (regenPkg p).sections).Nodup := by
  show (anonNamesOf (regenSecs 0 p.sections)).Nodup
  rw [anonNamesOf_regenSecs]
  refine List.Nodup.map ?_ (List.nodup_range' ..)
  intro a b hab
  exact anonName_inj a b hab

/-- Claim C2: for every package obtained from a successful import,
importing the output of exporting it succeeds and yields a package
structurally equal to it — the same name, the same sections in the same
order with the same types, anonymity and options in order — up to the
regenerated anonymous-section identifiers, which are again pairwise
distinct (internally consistent). -/
theorem claim_C2 (ctx : UciCtx) (input : String) (fb : Option String)
    (ctx1 : UciCtx) (p : UPackage)
    (h : uci_import ctx input fb = (ctx1, .ok p))
    (ctx2 : UciCtx) (fb2 : Option String) :
    ∃ ctx3 p2,
      uci_import ctx2 (uci_export ctx (some p)) fb2 = (ctx3, .ok p2) ∧
        pkgEq p2 p = true ∧ (anonNamesOf p2.sections).Nodup := by
  unfold uci_import at h
  cases hp : parseText input fb with
  | error e => rw [hp] at h; simp at h
  | ok q =>
    rw [hp] at h
    dsimp at h
    have hq : q = p := by
      have h2 := congrArg Prod.snd h
      simpa using h2
    subst hq
    have hw := parseText_nlFree input fb q hp
    have hre : uci_import ctx2 (uci_export ctx (some q)) fb2
        = ({ ctx2 with root := insertPackage ctx2.root (regenPkg q), pctx := none },
            .ok (regenPkg q)) := by
      show uci_import ctx2 (uci_export_pkg q) fb2 = _
      unfold uci_import
      rw [parse_export q hw fb2]
    exact ⟨_, regenPkg q, hre, pkgEq_regen q, anonNamesOf_regen_nodup q⟩

end Uci

namespace Uci

/-- Claim C2 witness: the spec's example configuration imports to a
concrete package whose export reimports to a structurally equal
package. -/
theorem claim_C2_witness :
    (uci_import ⟨[], 0, none⟩
        "package 'net'\nconfig 'interface' 'lan'\noption 'ifname' 'eth0'" none
      = (⟨[⟨"net", [⟨"interface", "lan", false, [⟨"ifname", "eth0"⟩]⟩], 0⟩], 0, none⟩,
          .ok ⟨"net", [⟨"interface", "lan", false, [⟨"ifname", "eth0"⟩]⟩], 0⟩)) ∧
      (∃ ctx3 p2,
        uci_import ⟨[], 0, none⟩
            (uci_export ⟨[], 0, none⟩
              (some ⟨"net", [⟨"interface", "lan", false, [⟨"ifname", "eth0"⟩]⟩], 0⟩))
            none
          = (ctx3, .ok p2) ∧
          pkgEq p2 ⟨"net", [⟨"interface", "lan", false, [⟨"ifname", "eth0"⟩]⟩], 0⟩ = true ∧
          (anonNamesOf p2.sections).Nodup) :=
  ⟨rfl, claim_C2 ⟨[], 0, none⟩
    "package 'net'\nconfig 'interface' 'lan'\noption 'ifname' 'eth0'" none
    ⟨[⟨"net", [⟨"interface", "lan", false, [⟨"ifname", "eth0"⟩]⟩], 0⟩], 0, none⟩
    ⟨"net", [⟨"interface", "lan", false, [⟨"ifname", "eth0"⟩]⟩], 0⟩ rfl
    ⟨[], 0, none⟩ none⟩

end Uci
